import Mathlib

/-!
Shallow embedding of the nlprule pattern-matching and suggestion-resolution
engine (src/nlprule/src/composition.rs and src/nlprule/src/rules.rs).

Conventions used throughout:
* Rust `usize` is modelled as `Nat`; `isize` as `Int`.
* The external regular-expression primitive (the `onig::Regex` leaf of
  `Matcher`) is modelled as an opaque Boolean predicate on strings, and the
  generic `MatchAtom` leaf (generic over matcher and accessor) is modelled as
  an opaque Boolean predicate on a token and the match graph: both are
  external collaborators whose internals the core never inspects.
* A Rust panic (the `expect` in span reconciliation) is modelled by
  `Except.error`; ordinary results are `Except.ok`.
* Rust slice indexing that is guarded by a bounds check in the source is
  modelled by `getD`/`get?` with the same guard; theorems carry the
  corresponding bounds hypotheses where the source relies on caller
  invariants.
-/

namespace NR

/-- Token as consumed by the matching core (external collaborator contract):
only the fields the two source files read are modelled. `word` models
`token.word.text`, `text` models `token.text` (the full source text carried on
each token, used by `Rules::suggest` for the occupancy-mask length), and
`char_span` is the `[start, end)` character range of the token. -/
structure Token where
  word : String
  text : String
  char_span : Nat × Nat
deriving DecidableEq, Inhabited

/-- Group of tokens captured by one part, with its reconciled character span
(from `composition.rs`, `struct Group`). -/
structure Group where
  char_start : Nat
  char_end : Nat
  tokens : List Token
deriving DecidableEq, Inhabited

/-- Group.empty (from `composition.rs`). -/
def Group.empty : Group :=
  { char_start := 0, char_end := 0, tokens := [] }

/-- MatchGraph (from `composition.rs`): one group slot per part, plus the
capture-id to part-index map. The Rust `HashMap<usize, usize>` is modelled as
an association list with `List.lookup`; `empty_from_parts` inserts pairwise
distinct keys, so lookup order is immaterial. -/
structure MatchGraph where
  groups : List Group
  id_to_idx : List (Nat × Nat)
deriving DecidableEq, Inhabited

/-- MatchGraph::get_index (from `composition.rs`). -/
def MatchGraph.get_index (g : MatchGraph) (id : Nat) : Option Nat :=
  g.id_to_idx.lookup id

/-- MatchGraph::by_id (from `composition.rs`): the source indexes
`self.groups[idx]` with an index that is always in range by construction;
modelled with `get?`. -/
def MatchGraph.by_id (g : MatchGraph) (id : Nat) : Option Group :=
  (g.get_index id).bind fun idx => g.groups.get? idx

/-- Matcher leaf alternatives (from `composition.rs`, the
`either::Either<either::Either<String, usize>, Regex>` field): a literal
string, a back-reference capture id, or an external regular expression
modelled as an opaque predicate. -/
inductive MatcherKind where
  | string (s : String)
  | idx (i : Nat)
  | regex (r : String → Bool)

/-- Matcher (from `composition.rs`). -/
structure Matcher where
  matcher : MatcherKind
  negate : Bool
  case_sensitive : Bool
  empty_always_false : Bool

/-- Matcher::is_match (from `composition.rs`). -/
def Matcher.is_match (m : Matcher) (input : String) (graph : MatchGraph) : Bool :=
  if input.isEmpty then
    if m.empty_always_false then false else m.negate
  else
    let matched :=
      match m.matcher with
      | .string s =>
          if m.case_sensitive then s == input else s.toLower == input.toLower
      | .idx i =>
          match graph.by_id i with
          | some x =>
              match x.tokens.get? 0 with
              | some token =>
                  if m.case_sensitive then token.word == input
                  else token.word.toLower == input.toLower
              | none => false
          | none => false
      | .regex r => r input
    if m.negate then !matched else matched

/-- Atom (from `composition.rs`): the polymorphic predicate tree. The
`MatchAtom` leaf family (generic over matcher and accessor, evaluated as
`access(input[position], graph, matcher)`) is modelled by `predAtom` carrying
the instantiated predicate on the token at the current position and the graph. -/
inductive Atom where
  | trueAtom
  | andAtom (atoms : List Atom)
  | orAtom (atoms : List Atom)
  | notAtom (atom : Atom)
  | offsetAtom (atom : Atom) (offset : Int)
  | predAtom (p : Token → MatchGraph → Bool)

/-- Atom::is_match (from `composition.rs`): `TrueAtom`, `AndAtom`, `OrAtom`,
`NotAtom`, `OffsetAtom` and the `MatchAtom` leaf. The `MatchAtom` case indexes
`input[position]`; every caller in the source guards `position < input.len()`,
so the out-of-range value is never consulted and is modelled by `getD`. -/
def Atom.is_match (a : Atom) (input : List Token) (graph : MatchGraph) (position : Nat) : Bool :=
  match a with
  | .trueAtom => true
  | .andAtom atoms => atoms.attach.all fun x =>
      match x with
      | ⟨a1, _h1⟩ => a1.is_match input graph position
  | .orAtom atoms => atoms.attach.any fun x =>
      match x with
      | ⟨a1, _h1⟩ => a1.is_match input graph position
  | .notAtom atom => !atom.is_match input graph position
  | .offsetAtom atom offset =>
      let new_position : Int := (position : Int) + offset
      if new_position < 0 || (input.length : Int) ≤ new_position then false
      else atom.is_match input graph new_position.toNat
  | .predAtom p => p (input.getD position default) graph

/-- Quantifier (from `composition.rs`): `Quantifier::new` asserts `max ≥ min`;
the bound is carried as a hypothesis in the theorems that rely on it. -/
structure Quantifier where
  min : Nat
  max : Nat
deriving DecidableEq

/-- Part (from `composition.rs`). -/
structure Part where
  atom : Atom
  quantifier : Quantifier
  visible : Bool

/-- Helper building both fields of `MatchGraph::empty_from_parts` in one scan,
mirroring the single Rust loop: `i` is the part index of the list head, `cur`
is the next capture id to assign. -/
def emptyFromPartsAux : List Part → Nat → Nat → List Group × List (Nat × Nat)
  | [], _, _ => ([], [])
  | p :: rest, i, cur =>
      let r := emptyFromPartsAux rest (i + 1) (if p.visible then cur + 1 else cur)
      (Group.empty :: r.1, if p.visible then (cur, i) :: r.2 else r.2)

/-- MatchGraph::empty_from_parts (from `composition.rs`): one empty group per
part; each visible part gets the next capture id mapped to its index. -/
def MatchGraph.empty_from_parts (parts : List Part) : MatchGraph :=
  let r := emptyFromPartsAux parts 0 0
  { groups := r.1, id_to_idx := r.2 }

/-- Composition (from `composition.rs`). -/
structure Composition where
  parts : List Part

/-- Composition::next_can_match (from `composition.rs`): lookahead over the
parts strictly after `index` up to and including the first part with
`min > 0` (or to the end if there is none). -/
def Composition.next_can_match (c : Composition) (tokens : List Token)
    (graph : MatchGraph) (position : Nat) (index : Nat) : Bool :=
  if index == c.parts.length - 1 then false
  else
    let next_required_pos :=
      match (c.parts.drop (index + 1)).findIdx? (fun x => 0 < x.quantifier.min) with
      | some pos => index + 1 + pos + 1
      | none => c.parts.length
    ((c.parts.drop (index + 1)).take (next_required_pos - (index + 1))).any
      fun x => x.atom.is_match tokens graph position

/-- Helper modifying the element of a list at one index (used for the Rust
`graph.groups[cur_atom_idx].tokens.push(..)` update). -/
def modifyIdx (f : α → α) : List α → Nat → List α
  | [], _ => []
  | x :: xs, 0 => f x :: xs
  | x :: xs, n + 1 => x :: modifyIdx f xs n

/-- Helper appending a token to the group of part `i` in the graph. -/
def MatchGraph.pushToken (g : MatchGraph) (i : Nat) (t : Token) : MatchGraph :=
  { g with groups := modifyIdx (fun grp => { grp with tokens := grp.tokens ++ [t] }) g.groups i }

/-- Main matching loop of Composition::apply (from `composition.rs`): returns
the loop's Boolean verdict, the graph with the captured tokens, and the value
of `cur_atom_idx` at loop exit (consulted by the all-remaining-parts-optional
fallback). -/
def Composition.applyLoop (c : Composition) (tokens : List Token)
    (position cur_count cur_atom_idx : Nat) (graph : MatchGraph) :
    Bool × MatchGraph × Nat :=
  if hlt : c.parts.length ≤ cur_atom_idx then (true, graph, cur_atom_idx)
  else
    let part := c.parts.get ⟨cur_atom_idx, by omega⟩
    if part.quantifier.max ≤ cur_count then
      if c.parts.length ≤ cur_atom_idx + 1 then (false, graph, cur_atom_idx + 1)
      else c.applyLoop tokens position 0 (cur_atom_idx + 1) graph
    else if hpos : tokens.length ≤ position then (false, graph, cur_atom_idx)
    else if part.quantifier.min ≤ cur_count
        ∧ c.next_can_match tokens graph position cur_atom_idx = true then
      c.applyLoop tokens position 0 (cur_atom_idx + 1) graph
    else if part.atom.is_match tokens graph position then
      c.applyLoop tokens (position + 1) (cur_count + 1) cur_atom_idx
        (graph.pushToken cur_atom_idx (tokens.get ⟨position, by omega⟩))
    else (false, graph, cur_atom_idx)
termination_by (c.parts.length - cur_atom_idx, tokens.length - position)

/-- Forward span-reconciliation pass of Composition::apply (from
`composition.rs`): `start` is the running value initialised to the first
nonempty group's first token's span start; nonempty groups get their first
token's span start and last token's span end, empty groups get the running
`start` as `char_end`. -/
def forwardPass (start : Nat) : List Group → List Group
  | [] => []
  | g :: rest =>
      match g.tokens with
      | [] => { g with char_end := start } :: forwardPass start rest
      | t :: ts =>
          { g with char_start := t.char_span.1, char_end := (ts.getLastD t).char_span.2 } ::
            forwardPass (ts.getLastD t).char_span.2 rest

/-- Backward span-reconciliation pass of Composition::apply, expressed on the
reversed group list (the source iterates `groups.iter_mut().rev()`): `e` is
the running value initialised to the last nonempty group's first token's span
end; nonempty groups update `e` to their last token's span start, empty groups
get the running `e` as `char_start`. -/
def backwardLoop (e : Nat) : List Group → List Group
  | [] => []
  | g :: rest =>
      match g.tokens with
      | [] => { g with char_start := e } :: backwardLoop e rest
      | t :: ts => g :: backwardLoop (ts.getLastD t).char_span.1 rest

/-- Backward span-reconciliation pass on the group list in its original order. -/
def backwardPass (e : Nat) (gs : List Group) : List Group :=
  (backwardLoop e gs.reverse).reverse

/-- Composition::apply (from `composition.rs`): the matching loop, the
all-remaining-parts-optional fallback, and span reconciliation. The
`expect("graph must contain at least one token")` abort is modelled as
`Except.error`; a no-match is `Except.ok none`. -/
def Composition.apply (c : Composition) (tokens : List Token) (start : Nat) :
    Except String (Option MatchGraph) :=
  let r := c.applyLoop tokens start 0 0 (MatchGraph.empty_from_parts c.parts)
  let is_match := r.1 || (c.parts.drop r.2.2).all fun x => x.quantifier.min == 0
  if is_match then
    match r.2.1.groups.findSome? (fun x => x.tokens.head?.map fun t => t.char_span.1),
        r.2.1.groups.reverse.findSome? (fun x => x.tokens.head?.map fun t => t.char_span.2) with
    | some s0, some e0 =>
        Except.ok (some { r.2.1 with groups := backwardPass e0 (forwardPass s0 r.2.1.groups) })
    | _, _ => Except.error "graph must contain at least one token"
  else
    Except.ok none

/-- Suggestion (from `rules.rs` / the external types module): a character
range of the original text plus the ordered alternative replacement strings.
The Rust field `end` is spelled `end_` because `end` is reserved in Lean. -/
structure Suggestion where
  start : Nat
  end_ : Nat
  text : List String
deriving DecidableEq, Inhabited

/-- Helper for the stable sort: insert a suggestion before the first element
with a strictly larger `start`, after all elements with a smaller-or-equal
`start` (so elements with equal keys keep their encounter order). -/
def insertByStart (s : Suggestion) : List Suggestion → List Suggestion
  | [] => [s]
  | k :: rest =>
      if s.start ≤ k.start then s :: k :: rest else k :: insertByStart s rest

/-- Model of `output.sort_by(|a, b| a.start.cmp(&b.start))` in `Rules::suggest`
(from `rules.rs`): the standard library sort is stable and keyed only on
`start`; it is modelled by stable insertion sort. -/
def sortByStart : List Suggestion → List Suggestion
  | [] => []
  | s :: rest => insertByStart s (sortByStart rest)

/-- Model of `mask[a..b].iter().all(|x| !x)` in `Rules::suggest` (from
`rules.rs`): every mask bit in the range `[a, b)` is unset. -/
def rangeFree (mask : List Bool) (a b : Nat) : Bool :=
  ((mask.drop a).take (b - a)).all fun x => !x

/-- Model of `mask[a..b].iter_mut().for_each(|x| *x = true)` in
`Rules::suggest` (from `rules.rs`): set every mask bit in the range `[a, b)`. -/
def markRange : List Bool → Nat → Nat → List Bool
  | [], _, _ => []
  | x :: xs, a, b =>
      (if a = 0 ∧ 0 < b then true else x) :: markRange xs (a - 1) (b - 1)

/-- Model of the `output.retain(..)` loop in `Rules::suggest` (from
`rules.rs`): keep a suggestion exactly when its `[start, end)` range is
entirely unoccupied, in which case the range is marked occupied. -/
def retainSuggestions (mask : List Bool) : List Suggestion → List Suggestion
  | [] => []
  | s :: rest =>
      if rangeFree mask s.start s.end_ then
        s :: retainSuggestions (markRange mask s.start s.end_) rest
      else
        retainSuggestions mask rest

/-- Merge step of `Rules::suggest` (from `rules.rs`): sort the collected
suggestions by `start` and walk them with an occupancy mask of `n` characters. -/
def mergeSuggestions (output : List Suggestion) (n : Nat) : List Suggestion :=
  retainSuggestions (List.replicate n false) (sortByStart output)

/-- Rule (external collaborator contract from `rules.rs`): `on` is the
enabled flag (spelled `on_` because `on` is reserved in Lean); `applyFn` models `rule.apply(tokens, Some(&skip_mask), tokenizer)`
with the rule's cache skip mask and the tokenizer absorbed into the function. -/
structure Rule where
  on_ : Bool
  applyFn : List Token → List Suggestion

/-- Rules (from `rules.rs`): the rule list; the cache is consulted only inside
each rule application and is absorbed into `Rule.applyFn`. -/
structure Rules where
  rules : List Rule

/-- Rules::suggest (from `rules.rs`): empty input returns no suggestions;
otherwise every enabled rule is applied, the per-rule suggestion batches are
concatenated in rule order, sorted by `start`, and filtered through the
character-occupancy mask whose length is `tokens[0].text.chars().count()`. -/
def Rules.suggest (r : Rules) (tokens : List Token) : List Suggestion :=
  match tokens with
  | [] => []
  | t0 :: _ =>
      let output := (r.rules.filter Rule.on_).flatMap fun rule => rule.applyFn tokens
      mergeSuggestions output t0.text.length

/-- Loop of the `correct` text patcher (from `rules.rs`): `offset` is the
running signed character offset, `chars` the mutable character buffer. Rust
indexes `suggestion.text[0]`; inputs produced by `Rules::suggest` always carry
at least one replacement, and the empty list is modelled by `headD ""`. -/
def correctLoop (offset : Int) (chars : List Char) : List Suggestion → List Char
  | [] => chars
  | s :: rest =>
      let replacement := (s.text.headD "").data
      let a := ((s.start : Int) + offset).toNat
      let b := ((s.end_ : Int) + offset).toNat
      let chars1 := chars.take a ++ replacement ++ chars.drop b
      correctLoop (offset + (replacement.length : Int) - ((s.end_ - s.start : Nat) : Int))
        chars1 rest

/-- correct (from `rules.rs`): apply an ordered, non-overlapping suggestion
list to a text, always choosing the first replacement. -/
def correct (text : String) (suggestions : List Suggestion) : String :=
  String.mk (correctLoop 0 text.data suggestions)

/-! ## Specification-side helper definitions -/

/-- Indices of the visible parts, in left-to-right order: the k-th entry is
the part index that capture id k should map to. -/
def visibleIndices : List Part → List Nat
  | [] => []
  | p :: rest =>
      if p.visible then 0 :: (visibleIndices rest).map (· + 1)
      else (visibleIndices rest).map (· + 1)

/-! ## Helper lemmas about `MatchGraph.empty_from_parts` -/

theorem emptyFromPartsAux_groups (parts : List Part) (i cur : Nat) :
    (emptyFromPartsAux parts i cur).1 = parts.map fun _ => Group.empty := by
  induction parts generalizing i cur with
  | nil => simp [emptyFromPartsAux]
  | cons p rest ih => simp [emptyFromPartsAux, ih]

theorem emptyFromPartsAux_lookup (parts : List Part) (i cur k : Nat) :
    (emptyFromPartsAux parts i cur).2.lookup (cur + k)
      = ((visibleIndices parts)[k]?).map (· + i) := by
  induction parts generalizing i cur k with
  | nil => simp [emptyFromPartsAux, visibleIndices]
  | cons p rest ih =>
    cases hv : p.visible with
    | true =>
      cases k with
      | zero =>
        simp [emptyFromPartsAux, hv, visibleIndices, List.lookup]
      | succ k =>
        have h1 : ((cur + (k + 1) == cur) = false) := by
          simp only [beq_eq_false_iff_ne, ne_eq]
          omega
        simp only [emptyFromPartsAux, hv, if_true, List.lookup, h1]
        rw [show cur + (k + 1) = (cur + 1) + k by omega, ih]
        simp only [visibleIndices, hv, if_true, List.getElem?_cons_succ,
          List.getElem?_map, Option.map_map]
        congr 1
        funext v
        simp only [Function.comp_apply]
        omega
    | false =>
      simp only [emptyFromPartsAux, hv, Bool.false_eq_true, if_false]
      rw [ih]
      simp only [visibleIndices, hv, Bool.false_eq_true, if_false,
        List.getElem?_map, Option.map_map]
      congr 1
      funext v
      simp only [Function.comp_apply]
      omega

theorem visibleIndices_getElem?_visible (parts : List Part) (k i : Nat)
    (h : (visibleIndices parts)[k]? = some i) :
    ∃ p, parts[i]? = some p ∧ p.visible = true := by
  induction parts generalizing k i with
  | nil => simp [visibleIndices] at h
  | cons p rest ih =>
    cases hv : p.visible with
    | true =>
      rw [visibleIndices, hv, if_pos rfl] at h
      cases k with
      | zero =>
        simp only [List.getElem?_cons_zero, Option.some_inj] at h
        subst h
        exact ⟨p, by simp, hv⟩
      | succ k =>
        rw [List.getElem?_cons_succ, List.getElem?_map] at h
        cases h2 : (visibleIndices rest)[k]? with
        | none => rw [h2] at h; simp at h
        | some j =>
          rw [h2] at h
          simp only [Option.map_some', Option.some_inj] at h
          obtain ⟨q, hq, hqv⟩ := ih k j h2
          refine ⟨q, ?_, hqv⟩
          rw [← h]
          simpa using hq
    | false =>
      rw [visibleIndices, hv] at h
      simp only [Bool.false_eq_true, if_false, List.getElem?_map] at h
      cases h2 : (visibleIndices rest)[k]? with
      | none => rw [h2] at h; simp at h
      | some j =>
        rw [h2] at h
        simp only [Option.map_some', Option.some_inj] at h
        obtain ⟨q, hq, hqv⟩ := ih k j h2
        refine ⟨q, ?_, hqv⟩
        rw [← h]
        simpa using hq

/-- C7: a Matcher never matches the empty string when `empty_always_false` is
set, and otherwise matching the empty string returns exactly the `negate`
flag, regardless of the matcher variant (literal, back-reference or regular
expression), which is never consulted. -/
theorem C7_matcher_empty_input (m : Matcher) (graph : MatchGraph) :
    m.is_match "" graph = if m.empty_always_false then false else m.negate := by
  rw [Matcher.is_match, if_pos (show "".isEmpty = true from rfl)]

/-- C10: Rules.suggest applied to an empty token slice returns the empty
suggestion list for every rule set (every `Rule.applyFn`, hence every cache
and tokenizer, is irrelevant: no rule is consulted). -/
theorem C10_suggest_empty_tokens (r : Rules) : r.suggest [] = [] := rfl

/-- C8: the MatchGraph built by `empty_from_parts` has exactly one group slot
per Part; capture id k is mapped exactly to the index of the k-th visible
Part (so ids 0..n go to the visible Parts in left-to-right order); every
assigned id maps to a visible Part's index; and `by_id` returns none for
every id with no corresponding visible Part. -/
theorem C8_capture_id_assignment (parts : List Part) :
    (MatchGraph.empty_from_parts parts).groups.length = parts.length
    ∧ (∀ k, (MatchGraph.empty_from_parts parts).get_index k = (visibleIndices parts)[k]?)
    ∧ (∀ k i, (MatchGraph.empty_from_parts parts).get_index k = some i →
        ∃ p, parts[i]? = some p ∧ p.visible = true)
    ∧ (∀ k, (visibleIndices parts)[k]? = none →
        (MatchGraph.empty_from_parts parts).by_id k = none) := by
  have hidx : ∀ k, (MatchGraph.empty_from_parts parts).get_index k
      = (visibleIndices parts)[k]? := by
    intro k
    have h := emptyFromPartsAux_lookup parts 0 0 k
    rw [Nat.zero_add] at h
    rw [MatchGraph.get_index, MatchGraph.empty_from_parts, h]
    cases (visibleIndices parts)[k]? with
    | none => rfl
    | some v => simp
  refine ⟨?_, hidx, ?_, ?_⟩
  · rw [MatchGraph.empty_from_parts]
    simp [emptyFromPartsAux_groups]
  · intro k i hk
    rw [hidx k] at hk
    exact visibleIndices_getElem?_visible parts k i hk
  · intro k hnone
    rw [MatchGraph.by_id, hidx k, hnone]
    rfl

def partsC8 : List Part :=
  [{ atom := Atom.trueAtom, quantifier := { min := 0, max := 1 }, visible := true },
   { atom := Atom.trueAtom, quantifier := { min := 1, max := 1 }, visible := false },
   { atom := Atom.trueAtom, quantifier := { min := 0, max := 2 }, visible := true }]

/-- Witness for C8 at a concrete part list (visible, invisible, visible):
two capture ids are assigned (to part indices 0 and 2), and `by_id 2` is
none. -/
theorem C8_capture_id_assignment_witness :
    ((MatchGraph.empty_from_parts partsC8).groups.length = partsC8.length
      ∧ (MatchGraph.empty_from_parts partsC8).get_index 0 = some 0
      ∧ (MatchGraph.empty_from_parts partsC8).get_index 1 = some 2)
    ∧ (visibleIndices partsC8)[2]? = none
    ∧ (MatchGraph.empty_from_parts partsC8).by_id 2 = none :=
  ⟨⟨(C8_capture_id_assignment partsC8).1,
    by rw [(C8_capture_id_assignment partsC8).2.1 0]; rfl,
    by rw [(C8_capture_id_assignment partsC8).2.1 1]; rfl⟩,
   rfl,
   (C8_capture_id_assignment partsC8).2.2.2 2 rfl⟩

/-! ## Step lemmas for the matching loop -/

theorem applyLoop_done (c : Composition) (tokens : List Token)
    (position cur_count cur_atom_idx : Nat) (graph : MatchGraph)
    (h : c.parts.length ≤ cur_atom_idx) :
    c.applyLoop tokens position cur_count cur_atom_idx graph = (true, graph, cur_atom_idx) := by
  rw [Composition.applyLoop]
  simp [h]

theorem applyLoop_maxed_last (c : Composition) (tokens : List Token)
    (position cur_count cur_atom_idx : Nat) (graph : MatchGraph) (part : Part)
    (h : c.parts[cur_atom_idx]? = some part)
    (hmax : part.quantifier.max ≤ cur_count)
    (hlast : c.parts.length ≤ cur_atom_idx + 1) :
    c.applyLoop tokens position cur_count cur_atom_idx graph
      = (false, graph, cur_atom_idx + 1) := by
  have hlt : cur_atom_idx < c.parts.length := by
    by_contra hc
    rw [List.getElem?_eq_none (by omega)] at h
    exact Option.noConfusion h
  rw [Composition.applyLoop]
  rw [dif_neg (by omega)]
  have hpart : c.parts.get ⟨cur_atom_idx, hlt⟩ = part := by
    have := List.getElem?_eq_getElem hlt
    rw [h] at this
    exact (Option.some_inj.mp this.symm)
  simp only [hpart]
  rw [if_pos hmax, if_pos hlast]

theorem applyLoop_maxed (c : Composition) (tokens : List Token)
    (position cur_count cur_atom_idx : Nat) (graph : MatchGraph) (part : Part)
    (h : c.parts[cur_atom_idx]? = some part)
    (hmax : part.quantifier.max ≤ cur_count)
    (hnext : cur_atom_idx + 1 < c.parts.length) :
    c.applyLoop tokens position cur_count cur_atom_idx graph
      = c.applyLoop tokens position 0 (cur_atom_idx + 1) graph := by
  have hlt : cur_atom_idx < c.parts.length := by omega
  rw [Composition.applyLoop]
  rw [dif_neg (by omega)]
  have hpart : c.parts.get ⟨cur_atom_idx, hlt⟩ = part := by
    have := List.getElem?_eq_getElem hlt
    rw [h] at this
    exact (Option.some_inj.mp this.symm)
  simp only [hpart]
  rw [if_pos hmax, if_neg (by omega)]

theorem applyLoop_eoi (c : Composition) (tokens : List Token)
    (position cur_count cur_atom_idx : Nat) (graph : MatchGraph) (part : Part)
    (h : c.parts[cur_atom_idx]? = some part)
    (hmax : cur_count < part.quantifier.max)
    (hpos : tokens.length ≤ position) :
    c.applyLoop tokens position cur_count cur_atom_idx graph
      = (false, graph, cur_atom_idx) := by
  have hlt : cur_atom_idx < c.parts.length := by
    by_contra hc
    rw [List.getElem?_eq_none (by omega)] at h
    exact Option.noConfusion h
  rw [Composition.applyLoop]
  rw [dif_neg (by omega)]
  have hpart : c.parts.get ⟨cur_atom_idx, hlt⟩ = part := by
    have := List.getElem?_eq_getElem hlt
    rw [h] at this
    exact (Option.some_inj.mp this.symm)
  simp only [hpart]
  rw [if_neg (by omega), dif_pos hpos]

theorem applyLoop_skip (c : Composition) (tokens : List Token)
    (position cur_count cur_atom_idx : Nat) (graph : MatchGraph) (part : Part)
    (h : c.parts[cur_atom_idx]? = some part)
    (hmax : cur_count < part.quantifier.max)
    (hpos : position < tokens.length)
    (hmin : part.quantifier.min ≤ cur_count)
    (hncm : c.next_can_match tokens graph position cur_atom_idx = true) :
    c.applyLoop tokens position cur_count cur_atom_idx graph
      = c.applyLoop tokens position 0 (cur_atom_idx + 1) graph := by
  have hlt : cur_atom_idx < c.parts.length := by
    by_contra hc
    rw [List.getElem?_eq_none (by omega)] at h
    exact Option.noConfusion h
  rw [Composition.applyLoop]
  rw [dif_neg (by omega)]
  have hpart : c.parts.get ⟨cur_atom_idx, hlt⟩ = part := by
    have := List.getElem?_eq_getElem hlt
    rw [h] at this
    exact (Option.some_inj.mp this.symm)
  simp only [hpart]
  rw [if_neg (by omega), dif_neg (by omega), if_pos ⟨hmin, hncm⟩]

theorem applyLoop_push (c : Composition) (tokens : List Token)
    (position cur_count cur_atom_idx : Nat) (graph : MatchGraph) (part : Part)
    (h : c.parts[cur_atom_idx]? = some part)
    (hmax : cur_count < part.quantifier.max)
    (hpos : position < tokens.length)
    (hskip : ¬ (part.quantifier.min ≤ cur_count
      ∧ c.next_can_match tokens graph position cur_atom_idx = true))
    (hatom : part.atom.is_match tokens graph position = true) :
    c.applyLoop tokens position cur_count cur_atom_idx graph
      = c.applyLoop tokens (position + 1) (cur_count + 1) cur_atom_idx
          (graph.pushToken cur_atom_idx (tokens.get ⟨position, hpos⟩)) := by
  have hlt : cur_atom_idx < c.parts.length := by
    by_contra hc
    rw [List.getElem?_eq_none (by omega)] at h
    exact Option.noConfusion h
  rw [Composition.applyLoop]
  rw [dif_neg (by omega)]
  have hpart : c.parts.get ⟨cur_atom_idx, hlt⟩ = part := by
    have := List.getElem?_eq_getElem hlt
    rw [h] at this
    exact (Option.some_inj.mp this.symm)
  simp only [hpart]
  rw [if_neg (by omega), dif_neg (by omega), if_neg hskip, if_pos hatom]

theorem applyLoop_fail (c : Composition) (tokens : List Token)
    (position cur_count cur_atom_idx : Nat) (graph : MatchGraph) (part : Part)
    (h : c.parts[cur_atom_idx]? = some part)
    (hmax : cur_count < part.quantifier.max)
    (hpos : position < tokens.length)
    (hskip : ¬ (part.quantifier.min ≤ cur_count
      ∧ c.next_can_match tokens graph position cur_atom_idx = true))
    (hatom : ¬ part.atom.is_match tokens graph position = true) :
    c.applyLoop tokens position cur_count cur_atom_idx graph
      = (false, graph, cur_atom_idx) := by
  have hlt : cur_atom_idx < c.parts.length := by
    by_contra hc
    rw [List.getElem?_eq_none (by omega)] at h
    exact Option.noConfusion h
  rw [Composition.applyLoop]
  rw [dif_neg (by omega)]
  have hpart : c.parts.get ⟨cur_atom_idx, hlt⟩ = part := by
    have := List.getElem?_eq_getElem hlt
    rw [h] at this
    exact (Option.some_inj.mp this.symm)
  simp only [hpart]
  rw [if_neg (by omega), dif_neg (by omega), if_neg hskip, if_neg hatom]

@[simp] theorem Atom.is_match_trueAtom (input : List Token) (graph : MatchGraph)
    (position : Nat) : Atom.is_match .trueAtom input graph position = true := by
  simp [Atom.is_match]

@[simp] theorem Atom.is_match_notAtom (a : Atom) (input : List Token) (graph : MatchGraph)
    (position : Nat) :
    Atom.is_match (.notAtom a) input graph position = !a.is_match input graph position := by
  simp [Atom.is_match]

theorem next_can_match_last (c : Composition) (tokens : List Token)
    (graph : MatchGraph) (position : Nat)
    (h : c.parts.length = 1) :
    c.next_can_match tokens graph position 0 = false := by
  rw [Composition.next_can_match, h]
  rfl

/-- Part whose atom is always true, with quantifier `[mn, mx]`. -/
def singleTruePart (mn mx : Nat) (vis : Bool) : Part :=
  { atom := Atom.trueAtom, quantifier := { min := mn, max := mx }, visible := vis }

/-- Composition of exactly one Part whose atom is always true and whose
quantifier is `[mn, mx]` (the shape of input named by C1). -/
def singleTrueComp (mn mx : Nat) (vis : Bool) : Composition :=
  ⟨[singleTruePart mn mx vis]⟩

/-- Behaviour of the matching loop on a Composition of exactly one part with
an always-true atom: the loop greedily pushes tokens until the quantifier
`max` is saturated (exiting with part index 1) or the input is exhausted
(exiting with part index 0), and always reports a loop-level failure. -/
theorem applyLoop_singleTrue (mn mx : Nat) (vis : Bool) (tokens : List Token)
    (position cur_count : Nat) (g : Group) (m : List (Nat × Nat)) :
    (singleTrueComp mn mx vis).applyLoop tokens position cur_count 0 ⟨[g], m⟩
      = (false,
         ⟨[{ g with tokens := g.tokens ++ (tokens.drop position).take (mx - cur_count) }], m⟩,
         if mx - cur_count ≤ tokens.length - position then 1 else 0) := by
  set c : Composition := singleTrueComp mn mx vis with hc
  set part : Part := singleTruePart mn mx vis with hpd
  have hp : c.parts[0]? = some part := rfl
  have H : ∀ fuel position cur_count g, tokens.length - position ≤ fuel →
      c.applyLoop tokens position cur_count 0 ⟨[g], m⟩
        = (false,
           ⟨[{ g with tokens := g.tokens ++ (tokens.drop position).take (mx - cur_count) }], m⟩,
           if mx - cur_count ≤ tokens.length - position then 1 else 0) := by
    intro fuel
    induction fuel with
    | zero =>
      intro pos count g hle
      have hpos : tokens.length ≤ pos := by omega
      by_cases hmx : mx ≤ count
      · rw [applyLoop_maxed_last c tokens pos count 0 ⟨[g], m⟩ part hp hmx (by simp [hc, singleTrueComp])]
        have h0 : mx - count = 0 := by omega
        simp [h0]
      · rw [applyLoop_eoi c tokens pos count 0 ⟨[g], m⟩ part hp (by simp [hpd, singleTruePart]; omega) hpos]
        rw [List.drop_eq_nil_of_le hpos]
        have h0 : tokens.length - pos = 0 := by omega
        rw [h0]
        rw [if_neg (by omega)]
        simp
    | succ fuel ih =>
      intro pos count g hle
      by_cases hmx : mx ≤ count
      · rw [applyLoop_maxed_last c tokens pos count 0 ⟨[g], m⟩ part hp hmx (by simp [hc, singleTrueComp])]
        have h0 : mx - count = 0 := by omega
        simp [h0]
      · by_cases hpos : tokens.length ≤ pos
        · rw [applyLoop_eoi c tokens pos count 0 ⟨[g], m⟩ part hp (by simp [hpd, singleTruePart]; omega) hpos]
          rw [List.drop_eq_nil_of_le hpos]
          have h0 : tokens.length - pos = 0 := by omega
          rw [h0]
          rw [if_neg (by omega)]
          simp
        · have hposlt : pos < tokens.length := by omega
          have hskip : ¬ (part.quantifier.min ≤ count
              ∧ c.next_can_match tokens ⟨[g], m⟩ pos 0 = true) := by
            intro hand
            rw [next_can_match_last c tokens ⟨[g], m⟩ pos (by simp [hc, singleTrueComp])] at hand
            exact Bool.noConfusion hand.2
          rw [applyLoop_push c tokens pos count 0 ⟨[g], m⟩ part hp
            (by simp [hpd, singleTruePart]; omega) hposlt hskip (by simp [hpd, singleTruePart])]
          have hpush : (MatchGraph.pushToken ⟨[g], m⟩ 0 (tokens.get ⟨pos, hposlt⟩))
              = ⟨[{ g with tokens := g.tokens ++ [tokens.get ⟨pos, hposlt⟩] }], m⟩ := rfl
          rw [hpush, ih (pos + 1) (count + 1)
            { g with tokens := g.tokens ++ [tokens.get ⟨pos, hposlt⟩] } (by omega)]
          have hdrop : tokens.drop pos = tokens.get ⟨pos, hposlt⟩ :: tokens.drop (pos + 1) := by
            rw [List.drop_eq_getElem_cons hposlt]
            rfl
          have htake : (tokens.drop pos).take (mx - count)
              = tokens.get ⟨pos, hposlt⟩ :: (tokens.drop (pos + 1)).take (mx - (count + 1)) := by
            rw [hdrop]
            have : mx - count = (mx - (count + 1)) + 1 := by omega
            rw [this, List.take_succ_cons]
          rw [htake]
          have hiff : (mx - (count + 1) ≤ tokens.length - (pos + 1))
              ↔ (mx - count ≤ tokens.length - pos) := by omega
          rw [if_congr hiff rfl rfl]
          simp
  exact H (tokens.length - position) position cur_count g (le_refl _)

/-- C1 (amended): a Composition of one Part with an always-true atom and
quantifier `[min, max]`, applied via Composition.apply at position 0 to a
token slice of length n, succeeds with its single group capturing exactly
`min(max, n)` tokens — provided `n ≥ max` or `min = 0` (otherwise the greedy
loop exhausts the input strictly between `min` and `max` repetitions and
returns no match even when `n ≥ min`), and provided `min(max, n) ≥ 1`
(a successful zero-token match would abort in span reconciliation). -/
theorem C1_amended_statement (mn mx : Nat) (vis : Bool) (tokens : List Token)
    (hok : mn = 0 ∨ mx ≤ tokens.length)
    (hmx : 1 ≤ mx) (hn1 : 1 ≤ tokens.length) :
    ∃ gr g0, (singleTrueComp mn mx vis).apply tokens 0 = Except.ok (some gr)
      ∧ gr.groups = [g0]
      ∧ g0.tokens = tokens.take mx
      ∧ g0.tokens.length = min mx tokens.length := by
  have hg0 : MatchGraph.empty_from_parts (singleTrueComp mn mx vis).parts
      = ⟨[Group.empty], if vis then [(0, 0)] else []⟩ := by
    cases vis <;> rfl
  have hloop := applyLoop_singleTrue mn mx vis tokens 0 0 Group.empty
    (if vis then [(0, 0)] else [])
  have hlen : (tokens.take mx).length = min mx tokens.length := List.length_take mx tokens
  have hne : tokens.take mx ≠ [] := by
    intro hz
    have h0 : min mx tokens.length = 0 := by
      rw [← hlen, hz]
      rfl
    omega
  obtain ⟨t0, ts, hts⟩ := List.exists_cons_of_ne_nil hne
  have hgroup : ({ Group.empty with
      tokens := Group.empty.tokens ++ (tokens.drop 0).take (mx - 0) } : Group)
      = ⟨0, 0, t0 :: ts⟩ := by
    simp [Group.empty, hts.symm]
  refine ⟨⟨[⟨t0.char_span.1, (ts.getLastD t0).char_span.2, t0 :: ts⟩], if vis then [(0, 0)] else []⟩,
    ⟨t0.char_span.1, (ts.getLastD t0).char_span.2, t0 :: ts⟩, ?_, rfl, by rw [hts], by
      rw [hts] at hlen; exact hlen⟩
  rw [Composition.apply, hg0, hloop, hgroup]
  have hmatch : (false || ((singleTrueComp mn mx vis).parts.drop
      (if mx - 0 ≤ tokens.length - 0 then 1 else 0)).all fun x => x.quantifier.min == 0)
      = true := by
    by_cases hcase : mx ≤ tokens.length
    · rw [if_pos (by omega)]
      rfl
    · have hmn0 : mn = 0 := hok.resolve_right hcase
      rw [if_neg (by omega)]
      simp [singleTrueComp, singleTruePart, hmn0]
  simp only [hmatch, if_true, Bool.or_eq_true]
  rfl

def tokA : Token :=
  { word := "a", text := "ab", char_span := (0, 1) }

def tokB : Token :=
  { word := "b", text := "ab", char_span := (1, 2) }

/-- Counterexample to C1 as stated: the Composition of one Part with an
always-true atom and quantifier `[1, 2]` (so `min ≤ max`), applied at
position 0 to a token slice of length 1 (which satisfies `n ≥ min`), returns
no match (`Except.ok none`) instead of the successful match capturing
`min(max, n) = 1` token that the claim predicts: the loop exhausts the input
strictly between `min` and `max` repetitions of the single part and the
trailing-parts fallback then requires `min = 0`. -/
theorem C1_counterexample :
    1 ≤ 2 ∧ 1 ≤ ([tokA] : List Token).length
    ∧ (singleTrueComp 1 2 true).apply [tokA] 0 = Except.ok none := by
  refine ⟨by omega, by simp, ?_⟩
  rw [Composition.apply]
  rw [show MatchGraph.empty_from_parts (singleTrueComp 1 2 true).parts
    = ⟨[Group.empty], [(0, 0)]⟩ from rfl]
  rw [applyLoop_singleTrue]
  simp [singleTrueComp, singleTruePart]

/-- Witness for the amended C1 at quantifier `[1, 2]` on a slice of length 2:
here `n ≥ max`, the match succeeds and the single group captures
`min(max, n) = 2` tokens. -/
theorem C1_amended_statement_witness :
    ((1 : Nat) = 0 ∨ 2 ≤ ([tokA, tokB] : List Token).length)
    ∧ (∃ gr g0, (singleTrueComp 1 2 true).apply [tokA, tokB] 0 = Except.ok (some gr)
        ∧ gr.groups = [g0]
        ∧ g0.tokens = ([tokA, tokB] : List Token).take 2
        ∧ g0.tokens.length = min 2 ([tokA, tokB] : List Token).length) :=
  ⟨Or.inr (by simp),
   C1_amended_statement 1 2 true [tokA, tokB] (Or.inr (by simp)) (by omega) (by simp)⟩

/-! ## Concrete evaluation of span reconciliation (claim C2) -/

def tokC2a : Token :=
  { word := "aa", text := "aa bb", char_span := (0, 3) }

def tokC2b : Token :=
  { word := "bb", text := "aa bb", char_span := (4, 7) }

def partC2a : Part :=
  { atom := Atom.notAtom Atom.trueAtom, quantifier := { min := 0, max := 1 }, visible := true }

def partC2b : Part :=
  { atom := Atom.trueAtom, quantifier := { min := 2, max := 2 }, visible := true }

def comp2 : Composition :=
  ⟨[partC2a, partC2b]⟩

theorem comp2_loop :
    comp2.applyLoop [tokC2a, tokC2b] 0 0 0 ⟨[Group.empty, Group.empty], [(0, 0), (1, 1)]⟩
      = (false, ⟨[Group.empty, ⟨0, 0, [tokC2a, tokC2b]⟩], [(0, 0), (1, 1)]⟩, 2) := by
  have hncm : comp2.next_can_match [tokC2a, tokC2b]
      ⟨[Group.empty, Group.empty], [(0, 0), (1, 1)]⟩ 0 0 = true := by
    rw [Composition.next_can_match]
    simp [comp2, partC2a, partC2b, List.findIdx?]
  have s1 := applyLoop_skip comp2 [tokC2a, tokC2b] 0 0 0
    ⟨[Group.empty, Group.empty], [(0, 0), (1, 1)]⟩ partC2a rfl (by decide) (by decide)
    (by decide) hncm
  have s2 : comp2.applyLoop [tokC2a, tokC2b] 0 0 1 ⟨[Group.empty, Group.empty], [(0, 0), (1, 1)]⟩
      = comp2.applyLoop [tokC2a, tokC2b] 1 1 1
          ⟨[Group.empty, ⟨0, 0, [tokC2a]⟩], [(0, 0), (1, 1)]⟩ := by
    rw [applyLoop_push comp2 [tokC2a, tokC2b] 0 0 1
      ⟨[Group.empty, Group.empty], [(0, 0), (1, 1)]⟩ partC2b rfl (by decide) (by decide)
      (fun hand => absurd hand.1 (by decide)) (by simp [partC2b])]
    rfl
  have s3 : comp2.applyLoop [tokC2a, tokC2b] 1 1 1
      ⟨[Group.empty, ⟨0, 0, [tokC2a]⟩], [(0, 0), (1, 1)]⟩
      = comp2.applyLoop [tokC2a, tokC2b] 2 2 1
          ⟨[Group.empty, ⟨0, 0, [tokC2a, tokC2b]⟩], [(0, 0), (1, 1)]⟩ := by
    rw [applyLoop_push comp2 [tokC2a, tokC2b] 1 1 1
      ⟨[Group.empty, ⟨0, 0, [tokC2a]⟩], [(0, 0), (1, 1)]⟩ partC2b rfl (by decide) (by decide)
      (fun hand => absurd hand.1 (by decide)) (by simp [partC2b])]
    rfl
  have s4 := applyLoop_maxed_last comp2 [tokC2a, tokC2b] 2 2 1
    ⟨[Group.empty, ⟨0, 0, [tokC2a, tokC2b]⟩], [(0, 0), (1, 1)]⟩ partC2b rfl (by decide)
    (by decide)
  rw [s1, s2, s3, s4]

def gr2 : MatchGraph :=
  ⟨[⟨4, 0, []⟩, ⟨0, 7, [tokC2a, tokC2b]⟩], [(0, 0), (1, 1)]⟩

/-- Counterexample to C2 as stated: on a successful apply of the Composition
{optional never-matching part, mandatory two-token always-true part} over
tokens with spans [0,3) and [4,7), the empty group 0 receives
`char_start = 4` from the backward pass (the span start of the LAST token of
the next nonempty group) while that next nonempty group's own reconciled
`char_start` is 0 — contradicting the claim that an empty group is given
"the start of the next nonempty group" as its span; its `char_end` is 0 (the
first nonempty group's start, there being no previous nonempty group), so its
span is not contiguous either. -/
theorem comp2_apply :
    comp2.apply [tokC2a, tokC2b] 0 = Except.ok (some gr2) := by
  rw [Composition.apply]
  rw [show MatchGraph.empty_from_parts comp2.parts
    = ⟨[Group.empty, Group.empty], [(0, 0), (1, 1)]⟩ from rfl]
  rw [comp2_loop]
  rfl

theorem C2_counterexample :
    comp2.apply [tokC2a, tokC2b] 0 = Except.ok (some gr2)
    ∧ gr2.groups[0]? = some ⟨4, 0, []⟩
    ∧ gr2.groups[1]? = some ⟨0, 7, [tokC2a, tokC2b]⟩
    ∧ (⟨4, 0, []⟩ : Group).char_start ≠ (⟨0, 7, [tokC2a, tokC2b]⟩ : Group).char_start :=
  ⟨comp2_apply, rfl, rfl, by decide⟩

/-! ## General characterisation of span reconciliation -/

/-- Span start of a nonempty group's first token (`tokens[0].char_span.0`). -/
def Group.firstFst (g : Group) : Nat :=
  (g.tokens.headD default).char_span.1

/-- Span end of a nonempty group's first token (`tokens[0].char_span.1`). -/
def Group.firstSnd (g : Group) : Nat :=
  (g.tokens.headD default).char_span.2

/-- Span start of a nonempty group's last token. -/
def Group.lastFst (g : Group) : Nat :=
  (g.tokens.getLastD default).char_span.1

/-- Span end of a nonempty group's last token. -/
def Group.lastSnd (g : Group) : Nat :=
  (g.tokens.getLastD default).char_span.2

/-- Value held by the forward reconciliation pass when it reaches index `i`:
the last-token span end of the nearest nonempty group before `i`, or the
initial value `s0` if no nonempty group precedes `i`. -/
def runningEnd (s0 : Nat) (gs : List Group) (i : Nat) : Nat :=
  match (gs.take i).reverse.find? (fun g => !g.tokens.isEmpty) with
  | some g => g.lastSnd
  | none => s0

/-- Value held by the backward reconciliation pass when it reaches index `i`:
the last-token span start of the nearest nonempty group after `i`, or the
initial value `e0` if no nonempty group follows `i`. -/
def runningStart (e0 : Nat) (gs : List Group) (i : Nat) : Nat :=
  match (gs.drop (i + 1)).find? (fun g => !g.tokens.isEmpty) with
  | some g => g.lastFst
  | none => e0

/-- Initial value of the forward pass: the first nonempty group's first-token
span start (0 if every group is empty, in which case apply aborts instead). -/
def fwdInit (gs : List Group) : Nat :=
  match gs.find? (fun g => !g.tokens.isEmpty) with
  | some g => g.firstFst
  | none => 0

/-- Initial value of the backward pass: the last nonempty group's first-token
span end (0 if every group is empty, in which case apply aborts instead). -/
def bwdInit (gs : List Group) : Nat :=
  match gs.reverse.find? (fun g => !g.tokens.isEmpty) with
  | some g => g.firstSnd
  | none => 0

theorem forwardPass_map_tokens (s0 : Nat) (gs : List Group) :
    (forwardPass s0 gs).map Group.tokens = gs.map Group.tokens := by
  induction gs generalizing s0 with
  | nil => rfl
  | cons g rest ih =>
    cases hgt : g.tokens with
    | nil => simp [forwardPass, hgt, ih]
    | cons t ts => simp [forwardPass, hgt, ih]

theorem backwardLoop_map_tokens (e0 : Nat) (l : List Group) :
    (backwardLoop e0 l).map Group.tokens = l.map Group.tokens := by
  induction l generalizing e0 with
  | nil => rfl
  | cons g rest ih =>
    cases hgt : g.tokens with
    | nil => simp [backwardLoop, hgt, ih]
    | cons t ts => simp [backwardLoop, hgt, ih]

theorem backwardPass_map_tokens (e0 : Nat) (gs : List Group) :
    (backwardPass e0 gs).map Group.tokens = gs.map Group.tokens := by
  rw [backwardPass, List.map_reverse, backwardLoop_map_tokens, List.map_reverse,
    List.reverse_reverse]

theorem forwardPass_length (s0 : Nat) (gs : List Group) :
    (forwardPass s0 gs).length = gs.length := by
  have h := forwardPass_map_tokens s0 gs
  have h1 := congrArg List.length h
  simpa using h1

theorem backwardPass_length (e0 : Nat) (gs : List Group) :
    (backwardPass e0 gs).length = gs.length := by
  have h := backwardPass_map_tokens e0 gs
  have h1 := congrArg List.length h
  simpa using h1

theorem runningEnd_zero (s0 : Nat) (gs : List Group) :
    runningEnd s0 gs 0 = s0 := by
  simp [runningEnd]

theorem runningEnd_cons (s0 : Nat) (g : Group) (rest : List Group) (i : Nat) :
    runningEnd s0 (g :: rest) (i + 1)
      = runningEnd (if g.tokens.isEmpty then s0 else g.lastSnd) rest i := by
  rw [runningEnd, runningEnd]
  rw [List.take_succ_cons, List.reverse_cons, List.find?_append]
  cases hgt : g.tokens with
  | nil =>
    simp [hgt]
  | cons t ts =>
    have hfind : List.find? (fun g => !g.tokens.isEmpty) [g] = some g := by
      simp [List.find?, hgt]
    rw [hfind]
    simp only [hgt, List.isEmpty_cons, Bool.false_eq_true, if_false]
    cases h : List.find? (fun g => !g.tokens.isEmpty) (List.take i rest).reverse with
    | none => rfl
    | some x => rfl

theorem forwardPass_getElem? (s0 : Nat) (gs : List Group) (i : Nat) :
    (forwardPass s0 gs)[i]? = (gs[i]?).map fun g =>
      if g.tokens.isEmpty then { g with char_end := runningEnd s0 gs i }
      else { g with char_start := g.firstFst, char_end := g.lastSnd } := by
  induction gs generalizing s0 i with
  | nil => simp [forwardPass]
  | cons g rest ih =>
    cases hgt : g.tokens with
    | nil =>
      cases i with
      | zero =>
        simp [forwardPass, hgt, runningEnd_zero]
      | succ i =>
        rw [forwardPass]
        rw [hgt]
        rw [List.getElem?_cons_succ, List.getElem?_cons_succ, ih, runningEnd_cons]
        simp [hgt]
    | cons t ts =>
      cases i with
      | zero =>
        rw [forwardPass]
        rw [hgt]
        simp only [List.getElem?_cons_zero, Option.map_some']
        rw [if_neg (by simp [hgt])]
        have h1 : Group.firstFst g = t.char_span.1 := by
          rw [Group.firstFst, hgt]
          rfl
        have h2 : Group.lastSnd g = (ts.getLastD t).char_span.2 := by
          rw [Group.lastSnd, hgt]
          cases ts with
          | nil => rfl
          | cons u us => simp [List.getLastD]
        rw [h1, h2, hgt]
      | succ i =>
        rw [forwardPass]
        rw [hgt]
        rw [List.getElem?_cons_succ, List.getElem?_cons_succ, ih, runningEnd_cons]
        have h2 : Group.lastSnd g = (ts.getLastD t).char_span.2 := by
          rw [Group.lastSnd, hgt]
          cases ts with
          | nil => rfl
          | cons u us => simp [List.getLastD]
        rw [if_neg (by simp [hgt]), h2]

/-- Running value of the backward loop at position `j` of its reversed input
list: the last-token span start of the nearest nonempty group earlier in the
reversed order, or the initial value `e0`. -/
def bwdRunning (e0 : Nat) (l : List Group) (j : Nat) : Nat :=
  match (l.take j).reverse.find? (fun g => !g.tokens.isEmpty) with
  | some g => g.lastFst
  | none => e0

theorem bwdRunning_zero (e0 : Nat) (l : List Group) : bwdRunning e0 l 0 = e0 := by
  simp [bwdRunning]

theorem bwdRunning_cons (e0 : Nat) (g : Group) (rest : List Group) (j : Nat) :
    bwdRunning e0 (g :: rest) (j + 1)
      = bwdRunning (if g.tokens.isEmpty then e0 else g.lastFst) rest j := by
  rw [bwdRunning, bwdRunning]
  rw [List.take_succ_cons, List.reverse_cons, List.find?_append]
  cases hgt : g.tokens with
  | nil =>
    simp [hgt]
  | cons t ts =>
    have hfind : List.find? (fun g => !g.tokens.isEmpty) [g] = some g := by
      simp [List.find?, hgt]
    rw [hfind]
    simp only [hgt, List.isEmpty_cons, Bool.false_eq_true, if_false]
    cases h : List.find? (fun g => !g.tokens.isEmpty) (List.take j rest).reverse with
    | none => rfl
    | some x => rfl

theorem backwardLoop_getElem? (e0 : Nat) (l : List Group) (j : Nat) :
    (backwardLoop e0 l)[j]? = (l[j]?).map fun g =>
      if g.tokens.isEmpty then { g with char_start := bwdRunning e0 l j } else g := by
  induction l generalizing e0 j with
  | nil => simp [backwardLoop]
  | cons g rest ih =>
    cases hgt : g.tokens with
    | nil =>
      cases j with
      | zero =>
        simp [backwardLoop, hgt, bwdRunning_zero]
      | succ j =>
        rw [backwardLoop]
        rw [hgt]
        rw [List.getElem?_cons_succ, List.getElem?_cons_succ, ih, bwdRunning_cons]
        simp [hgt]
    | cons t ts =>
      cases j with
      | zero =>
        rw [backwardLoop]
        rw [hgt]
        simp only [List.getElem?_cons_zero, Option.map_some']
        rw [if_neg (by simp [hgt])]
      | succ j =>
        rw [backwardLoop]
        rw [hgt]
        rw [List.getElem?_cons_succ, List.getElem?_cons_succ, ih, bwdRunning_cons]
        have h2 : Group.lastFst g = (ts.getLastD t).char_span.1 := by
          rw [Group.lastFst, hgt]
          cases ts with
          | nil => rfl
          | cons u us => simp [List.getLastD]
        rw [if_neg (by simp [hgt]), h2]

theorem backwardLoop_length (e0 : Nat) (l : List Group) :
    (backwardLoop e0 l).length = l.length := by
  have h := backwardLoop_map_tokens e0 l
  have h1 := congrArg List.length h
  simpa using h1

theorem backwardPass_getElem? (e0 : Nat) (gs : List Group) (i : Nat) (hi : i < gs.length) :
    (backwardPass e0 gs)[i]? = (gs[i]?).map fun g =>
      if g.tokens.isEmpty then { g with char_start := runningStart e0 gs i } else g := by
  rw [backwardPass]
  have hlen : (backwardLoop e0 gs.reverse).length = gs.reverse.length :=
    backwardLoop_length e0 gs.reverse
  rw [List.getElem?_reverse (by rw [hlen]; simpa using hi)]
  rw [hlen]
  rw [backwardLoop_getElem?]
  have hrl : gs.reverse.length = gs.length := List.length_reverse gs
  rw [hrl]
  have hidx : gs.reverse[gs.length - 1 - i]? = gs[i]? := by
    rw [List.getElem?_reverse (by simpa using (by omega : gs.length - 1 - i < gs.length))]
    congr 1
    omega
  rw [hidx]
  have hrun : bwdRunning e0 gs.reverse (gs.length - 1 - i) = runningStart e0 gs i := by
    rw [bwdRunning, runningStart]
    rw [List.take_reverse]
    rw [List.reverse_reverse]
    have : gs.length - (gs.length - 1 - i) = i + 1 := by omega
    rw [this]
  rw [hrun]

theorem findNonempty_congr (f : Group → Nat)
    (hf : ∀ g g' : Group, g.tokens = g'.tokens → f g = f g') (d : Nat)
    (l l' : List Group) (h : l.map Group.tokens = l'.map Group.tokens) :
    (match l.find? (fun g => !g.tokens.isEmpty) with | some g => f g | none => d)
    = (match l'.find? (fun g => !g.tokens.isEmpty) with | some g => f g | none => d) := by
  induction l generalizing l' with
  | nil =>
    cases l' with
    | nil => rfl
    | cons g' rest' => simp at h
  | cons g rest ih =>
    cases l' with
    | nil => simp at h
    | cons g' rest' =>
      simp only [List.map_cons, List.cons.injEq] at h
      obtain ⟨h1, h2⟩ := h
      by_cases hge : g.tokens.isEmpty = true
      · have hge' : g'.tokens.isEmpty = true := by rw [← h1]; exact hge
        rw [List.find?_cons_of_neg _ (by simp [hge]),
          List.find?_cons_of_neg _ (by simp [hge'])]
        exact ih rest' h2
      · have hge' : ¬ g'.tokens.isEmpty = true := by rw [← h1]; exact hge
        rw [List.find?_cons_of_pos _ (by simp [hge]),
          List.find?_cons_of_pos _ (by simp [hge'])]
        exact hf g g' h1

theorem runningEnd_congr (s0 : Nat) (gs gs' : List Group) (i : Nat)
    (h : gs.map Group.tokens = gs'.map Group.tokens) :
    runningEnd s0 gs i = runningEnd s0 gs' i := by
  rw [runningEnd, runningEnd]
  exact findNonempty_congr Group.lastSnd
    (fun g g' hgg => by rw [Group.lastSnd, Group.lastSnd, hgg]) s0 _ _
    (by rw [List.map_reverse, List.map_reverse, List.map_take, List.map_take, h])

theorem runningStart_congr (e0 : Nat) (gs gs' : List Group) (i : Nat)
    (h : gs.map Group.tokens = gs'.map Group.tokens) :
    runningStart e0 gs i = runningStart e0 gs' i := by
  rw [runningStart, runningStart]
  exact findNonempty_congr Group.lastFst
    (fun g g' hgg => by rw [Group.lastFst, Group.lastFst, hgg]) e0 _ _
    (by rw [List.map_drop, List.map_drop, h])

theorem fwdInit_congr (gs gs' : List Group)
    (h : gs.map Group.tokens = gs'.map Group.tokens) :
    fwdInit gs = fwdInit gs' := by
  rw [fwdInit, fwdInit]
  exact findNonempty_congr Group.firstFst
    (fun g g' hgg => by rw [Group.firstFst, Group.firstFst, hgg]) 0 _ _ h

theorem bwdInit_congr (gs gs' : List Group)
    (h : gs.map Group.tokens = gs'.map Group.tokens) :
    bwdInit gs = bwdInit gs' := by
  rw [bwdInit, bwdInit]
  exact findNonempty_congr Group.firstSnd
    (fun g g' hgg => by rw [Group.firstSnd, Group.firstSnd, hgg]) 0 _ _
    (by rw [List.map_reverse, List.map_reverse, h])

/-- Bridge between the source's `find_map` expression (modelled by
`findSome?` over `head?`) and the find?-of-nonempty-group formulation. -/
theorem findSome?_head_eq (gs : List Group) (f : Token → Nat) :
    gs.findSome? (fun x => x.tokens.head?.map f)
      = (gs.find? (fun g => !g.tokens.isEmpty)).map fun g => f (g.tokens.headD default) := by
  induction gs with
  | nil => rfl
  | cons g rest ih =>
    cases hgt : g.tokens with
    | nil =>
      rw [List.findSome?_cons, List.find?_cons_of_neg _ (by simp [hgt])]
      rw [hgt]
      simpa using ih
    | cons t ts =>
      rw [List.findSome?_cons, List.find?_cons_of_pos _ (by simp [hgt])]
      simp [hgt]

/-- C2 (amended): on every successful Composition.apply, each nonempty group
has `char_start` equal to its first token's span start and `char_end` equal
to its last token's span end; each empty group has `char_end` equal to the
last-token span end of the nearest preceding nonempty group (or, when no
nonempty group precedes it, the first nonempty group's first-token span
start), and `char_start` equal to the last-token span START of the nearest
following nonempty group (or, when no nonempty group follows it, the last
nonempty group's first-token span end). -/
theorem C2_amended_statement (c : Composition) (tokens : List Token) (start : Nat)
    (gr : MatchGraph) (h : c.apply tokens start = Except.ok (some gr)) :
    ∀ i g, gr.groups[i]? = some g →
      (g.tokens ≠ [] → g.char_start = g.firstFst ∧ g.char_end = g.lastSnd)
      ∧ (g.tokens = [] →
          g.char_end = runningEnd (fwdInit gr.groups) gr.groups i
          ∧ g.char_start = runningStart (bwdInit gr.groups) gr.groups i) := by
  rw [Composition.apply] at h
  set r := c.applyLoop tokens start 0 0 (MatchGraph.empty_from_parts c.parts) with hr
  simp only at h
  split at h
  case isFalse => exact absurd h (by simp)
  case isTrue hmatch =>
  split at h
  case h_2 => exact absurd h (by simp)
  case h_1 s0 e0 hs0 he0 =>
  have hgr : gr = { r.2.1 with groups := backwardPass e0 (forwardPass s0 r.2.1.groups) } := by
    have := h
    simp only [Except.ok.injEq, Option.some_inj] at this
    exact this.symm
  set gs0 := r.2.1.groups with hgs0
  set gs1 := forwardPass s0 gs0 with hgs1
  set gs2 := backwardPass e0 gs1 with hgs2
  have hgroups : gr.groups = gs2 := by rw [hgr]
  have htok21 : gs2.map Group.tokens = gs1.map Group.tokens := backwardPass_map_tokens e0 gs1
  have htok10 : gs1.map Group.tokens = gs0.map Group.tokens := forwardPass_map_tokens s0 gs0
  have htok20 : gs2.map Group.tokens = gs0.map Group.tokens := htok21.trans htok10
  have hs0v : fwdInit gs0 = s0 := by
    rw [findSome?_head_eq] at hs0
    rw [fwdInit]
    cases hf : gs0.find? (fun g => !g.tokens.isEmpty) with
    | none => rw [hf] at hs0; exact absurd hs0 (by simp)
    | some gfound =>
      rw [hf] at hs0
      simp only [Option.map_some', Option.some_inj] at hs0
      simpa [Group.firstFst] using hs0
  have he0v : bwdInit gs0 = e0 := by
    rw [findSome?_head_eq] at he0
    rw [bwdInit]
    cases hf : gs0.reverse.find? (fun g => !g.tokens.isEmpty) with
    | none => rw [hf] at he0; exact absurd he0 (by simp)
    | some gfound =>
      rw [hf] at he0
      simp only [Option.map_some', Option.some_inj] at he0
      simpa [Group.firstSnd] using he0
  intro i g hg
  rw [hgroups] at hg
  have hi2 : i < gs2.length := by
    by_contra hc
    rw [List.getElem?_eq_none (by omega)] at hg
    exact Option.noConfusion hg
  have hi1 : i < gs1.length := by
    rw [hgs2] at hi2
    rw [backwardPass_length] at hi2
    exact hi2
  have hi0 : i < gs0.length := by
    rw [hgs1] at hi1
    rw [forwardPass_length] at hi1
    exact hi1
  rw [hgs2, backwardPass_getElem? e0 gs1 i hi1] at hg
  rw [hgs1, forwardPass_getElem? s0 gs0 i, ← hgs1] at hg
  cases hg0 : gs0[i]? with
  | none => rw [hg0] at hg; exact absurd hg (by simp)
  | some g0 =>
    rw [hg0] at hg
    simp only [Option.map_some', Option.some_inj] at hg
    by_cases hge : g0.tokens = []
    · have hgval : g = ⟨runningStart e0 gs1 i, runningEnd s0 gs0 i, g0.tokens⟩ := by
        rw [← hg]
        simp [hge]
      constructor
      · intro hne
        exact absurd (by rw [hgval]; exact hge) hne
      · intro _
        rw [hgval]
        refine ⟨?_, ?_⟩
        · rw [hgroups, fwdInit_congr gs2 gs0 htok20, hs0v,
            runningEnd_congr s0 gs2 gs0 i htok20]
        · rw [hgroups, bwdInit_congr gs2 gs0 htok20, he0v,
            runningStart_congr e0 gs2 gs1 i (htok21)]
    · have hgval : g = ⟨g0.firstFst, g0.lastSnd, g0.tokens⟩ := by
        rw [← hg]
        simp [hge]
      constructor
      · intro _
        rw [hgval]
        refine ⟨?_, ?_⟩
        · rw [Group.firstFst, Group.firstFst]
        · rw [Group.lastSnd, Group.lastSnd]
      · intro hemp
        rw [hgval] at hemp
        exact absurd hemp hge

/-- Witness for the amended C2 at the concrete composition `comp2`: the empty
group 0 of the successful match gets `char_end = 0` (first nonempty group's
first-token span start, no nonempty group preceding) and `char_start = 4`
(last-token span start of the following nonempty group). -/
theorem C2_amended_statement_witness :
    comp2.apply [tokC2a, tokC2b] 0 = Except.ok (some gr2)
    ∧ ((⟨4, 0, []⟩ : Group).tokens = [] →
        (⟨4, 0, []⟩ : Group).char_end = runningEnd (fwdInit gr2.groups) gr2.groups 0
        ∧ (⟨4, 0, []⟩ : Group).char_start = runningStart (bwdInit gr2.groups) gr2.groups 0) :=
  ⟨comp2_apply,
   (C2_amended_statement comp2 [tokC2a, tokC2b] 0 gr2 comp2_apply 0 ⟨4, 0, []⟩ rfl).2⟩

/-! ## Loop invariant: a successful match captures a token for every
mandatory part (claim C5) -/

theorem modifyIdx_getElem? (f : α → α) (l : List α) (i j : Nat) :
    (modifyIdx f l i)[j]? = if i = j then (l[j]?).map f else l[j]? := by
  induction l generalizing i j with
  | nil => simp [modifyIdx]
  | cons x xs ih =>
    cases i with
    | zero =>
      cases j with
      | zero => simp [modifyIdx]
      | succ j => simp [modifyIdx]
    | succ i =>
      cases j with
      | zero => simp [modifyIdx, Nat.succ_ne_zero]
      | succ j =>
        simp only [modifyIdx, List.getElem?_cons_succ, ih]
        by_cases hij : i = j
        · rw [if_pos hij, if_pos (by omega)]
        · rw [if_neg hij, if_neg (by omega)]

theorem modifyIdx_length (f : α → α) (l : List α) (i : Nat) :
    (modifyIdx f l i).length = l.length := by
  induction l generalizing i with
  | nil => rfl
  | cons x xs ih =>
    cases i with
    | zero => simp [modifyIdx]
    | succ i => simp [modifyIdx, ih]

theorem applyLoop_invariant (c : Composition) (tokens : List Token)
    (k : Nat) (pk : Part) (hk : c.parts[k]? = some pk)
    (hkq : pk.quantifier.min ≤ pk.quantifier.max) :
    ∀ fuel position cur_count cur_atom_idx graph,
      (c.parts.length - cur_atom_idx) + (tokens.length - position) ≤ fuel →
      graph.groups.length = c.parts.length →
      (k < cur_atom_idx → ∃ gk, graph.groups[k]? = some gk
        ∧ pk.quantifier.min ≤ gk.tokens.length) →
      (cur_atom_idx ≤ k → ∃ gk, graph.groups[k]? = some gk
        ∧ gk.tokens.length = if cur_atom_idx = k then cur_count else 0) →
      ((c.applyLoop tokens position cur_count cur_atom_idx graph).2.1.groups.length
          = c.parts.length)
      ∧ ((c.applyLoop tokens position cur_count cur_atom_idx graph).1 = true →
          c.parts.length ≤ (c.applyLoop tokens position cur_count cur_atom_idx graph).2.2)
      ∧ (k < (c.applyLoop tokens position cur_count cur_atom_idx graph).2.2 →
          ∃ gk, (c.applyLoop tokens position cur_count cur_atom_idx graph).2.1.groups[k]?
            = some gk ∧ pk.quantifier.min ≤ gk.tokens.length) := by
  have hklen : k < c.parts.length := by
    by_contra hc
    rw [List.getElem?_eq_none (by omega)] at hk
    exact Option.noConfusion hk
  intro fuel
  induction fuel with
  | zero =>
    intro position cur_count cur_atom_idx graph hfuel hlen hinv3 hinv4
    have hidx : c.parts.length ≤ cur_atom_idx := by
      clear hinv3 hinv4
      omega
    rw [applyLoop_done c tokens position cur_count cur_atom_idx graph hidx]
    exact ⟨hlen, fun _ => hidx, fun hki => hinv3 hki⟩
  | succ fuel ih =>
    intro position cur_count cur_atom_idx graph hfuel hlen hinv3 hinv4
    by_cases hidx : c.parts.length ≤ cur_atom_idx
    · rw [applyLoop_done c tokens position cur_count cur_atom_idx graph hidx]
      exact ⟨hlen, fun _ => hidx, fun hki => hinv3 hki⟩
    · have hidxlt : cur_atom_idx < c.parts.length := by omega
      set part := c.parts.get ⟨cur_atom_idx, hidxlt⟩ with hpart
      have hpartelem : c.parts[cur_atom_idx]? = some part := by
        rw [hpart]
        exact List.getElem?_eq_getElem hidxlt
      have hparteq : cur_atom_idx = k → part = pk := by
        intro he
        subst he
        rw [hpartelem] at hk
        exact Option.some_inj.mp hk
      by_cases hmax : part.quantifier.max ≤ cur_count
      · by_cases hlast : c.parts.length ≤ cur_atom_idx + 1
        · rw [applyLoop_maxed_last c tokens position cur_count cur_atom_idx graph part
            hpartelem hmax hlast]
          refine ⟨hlen, fun hfalse => Bool.noConfusion hfalse, fun hki => ?_⟩
          by_cases hkcur : k < cur_atom_idx
          · exact hinv3 hkcur
          · have hkeq : cur_atom_idx = k := by clear ih hinv3 hinv4; omega
            obtain ⟨gk, hgk, hgklen⟩ := hinv4 (Nat.le_of_not_lt hkcur)
            refine ⟨gk, hgk, ?_⟩
            rw [if_pos hkeq] at hgklen
            rw [hparteq hkeq] at hmax
            clear ih hinv3 hinv4
            omega
        · rw [applyLoop_maxed c tokens position cur_count cur_atom_idx graph part
            hpartelem hmax (by clear ih hinv3 hinv4; omega)]
          refine ih position 0 (cur_atom_idx + 1) graph (by clear ih hinv3 hinv4; omega) hlen ?_ ?_
          · intro hki
            by_cases hkcur : k < cur_atom_idx
            · exact hinv3 hkcur
            · have hkeq : cur_atom_idx = k := by clear ih hinv3 hinv4; omega
              obtain ⟨gk, hgk, hgklen⟩ := hinv4 (Nat.le_of_not_lt hkcur)
              refine ⟨gk, hgk, ?_⟩
              rw [if_pos hkeq] at hgklen
              rw [hparteq hkeq] at hmax
              clear ih hinv3 hinv4
              omega
          · intro hki
            obtain ⟨gk, hgk, hgklen⟩ := hinv4 (Nat.le_of_succ_le hki)
            refine ⟨gk, hgk, ?_⟩
            have hne1 : ¬ (cur_atom_idx = k) := by clear ih hinv3 hinv4; omega
            rw [if_neg hne1] at hgklen
            rw [ite_self]
            exact hgklen
      · by_cases hpos : tokens.length ≤ position
        · rw [applyLoop_eoi c tokens position cur_count cur_atom_idx graph part
            hpartelem (by clear ih hinv3 hinv4; omega) hpos]
          exact ⟨hlen, fun hfalse => Bool.noConfusion hfalse, fun hki => hinv3 hki⟩
        · by_cases hskip : part.quantifier.min ≤ cur_count
            ∧ c.next_can_match tokens graph position cur_atom_idx = true
          · rw [applyLoop_skip c tokens position cur_count cur_atom_idx graph part
              hpartelem (by clear ih hinv3 hinv4; omega) (by clear ih hinv3 hinv4; omega) hskip.1 hskip.2]
            refine ih position 0 (cur_atom_idx + 1) graph (by clear ih hinv3 hinv4; omega) hlen ?_ ?_
            · intro hki
              by_cases hkcur : k < cur_atom_idx
              · exact hinv3 hkcur
              · have hkeq : cur_atom_idx = k := by clear ih hinv3 hinv4; omega
                obtain ⟨gk, hgk, hgklen⟩ := hinv4 (Nat.le_of_not_lt hkcur)
                refine ⟨gk, hgk, ?_⟩
                rw [if_pos hkeq] at hgklen
                have hmin := hskip.1
                rw [hparteq hkeq] at hmin
                clear ih hinv3 hinv4
                omega
            · intro hki
              obtain ⟨gk, hgk, hgklen⟩ := hinv4 (Nat.le_of_succ_le hki)
              refine ⟨gk, hgk, ?_⟩
              have hne1 : ¬ (cur_atom_idx = k) := by clear ih hinv3 hinv4; omega
              rw [if_neg hne1] at hgklen
              rw [ite_self]
              exact hgklen
          · by_cases hatom : part.atom.is_match tokens graph position = true
            · have hposlt : position < tokens.length := by clear ih hinv3 hinv4; omega
              have hcntlt : cur_count < part.quantifier.max := by clear ih hinv3 hinv4; omega
              rw [applyLoop_push c tokens position cur_count cur_atom_idx graph part
                hpartelem hcntlt hposlt hskip hatom]
              have hplen : (graph.pushToken cur_atom_idx
                  (tokens.get ⟨position, hposlt⟩)).groups.length = c.parts.length := by
                rw [MatchGraph.pushToken]
                simpa [modifyIdx_length] using hlen
              refine ih (position + 1) (cur_count + 1) cur_atom_idx
                (graph.pushToken cur_atom_idx (tokens.get ⟨position, hposlt⟩))
                (by clear ih hinv3 hinv4; omega) hplen ?_ ?_
              · intro hki
                obtain ⟨gk, hgk, hgklen⟩ := hinv3 hki
                refine ⟨gk, ?_, hgklen⟩
                rw [MatchGraph.pushToken]
                simp only [modifyIdx_getElem?]
                have hne2 : ¬ (cur_atom_idx = k) := by clear ih hinv3 hinv4; omega
                rw [if_neg hne2]
                exact hgk
              · intro hki
                obtain ⟨gk, hgk, hgklen⟩ := hinv4 hki
                by_cases hkeq : cur_atom_idx = k
                · refine ⟨{ gk with tokens := gk.tokens
                      ++ [tokens.get ⟨position, hposlt⟩] }, ?_, ?_⟩
                  · rw [MatchGraph.pushToken]
                    simp only [modifyIdx_getElem?]
                    rw [if_pos hkeq, hgk]
                    rfl
                  · rw [if_pos hkeq] at hgklen
                    simp [hgklen, hkeq]
                · refine ⟨gk, ?_, ?_⟩
                  · rw [MatchGraph.pushToken]
                    simp only [modifyIdx_getElem?]
                    rw [if_neg hkeq]
                    exact hgk
                  · rw [if_neg hkeq] at hgklen
                    rw [if_neg hkeq]
                    exact hgklen
            · rw [applyLoop_fail c tokens position cur_count cur_atom_idx graph part
                hpartelem (by clear ih hinv3 hinv4; omega) (by clear ih hinv3 hinv4; omega) hskip hatom]
              exact ⟨hlen, fun hfalse => Bool.noConfusion hfalse, fun hki => hinv3 hki⟩

theorem mem_of_getElem?_eq {l : List α} {i : Nat} {a : α} (h : l[i]? = some a) : a ∈ l := by
  obtain ⟨hlt, rfl⟩ := List.getElem?_eq_some_iff.mp h
  exact List.getElem_mem hlt

theorem findSome?_head_isSome (gs : List Group) (f : Token → Nat)
    (hex : ∃ g, g ∈ gs ∧ g.tokens ≠ []) :
    ∃ v, gs.findSome? (fun x => x.tokens.head?.map f) = some v := by
  rw [findSome?_head_eq]
  obtain ⟨g, hmem, hne⟩ := hex
  have hsome : (gs.find? (fun g => !g.tokens.isEmpty)).isSome = true := by
    rw [List.find?_isSome]
    exact ⟨g, hmem, by simpa using hne⟩
  obtain ⟨gf, hgf⟩ := Option.isSome_iff_exists.mp hsome
  rw [hgf]
  exact ⟨_, rfl⟩

/-- C5: when some Part of the Composition carries a quantifier with
`0 < min ≤ max`, Composition.apply is total: it never reaches the
span-reconciliation abort (the `expect("graph must contain at least one
token")` panic), returning `Except.ok (some graph)` on a match and
`Except.ok none` on a no-match, because every successful match has captured
at least `min ≥ 1` tokens for that Part. -/
theorem C5_apply_total (c : Composition) (tokens : List Token) (start : Nat)
    (hreq : ∃ (k : Nat) (pk : Part), c.parts[k]? = some pk ∧ 0 < pk.quantifier.min
      ∧ pk.quantifier.min ≤ pk.quantifier.max) :
    ∃ res : Option MatchGraph, c.apply tokens start = Except.ok res := by
  obtain ⟨k, pk, hk, hmin, hkq⟩ := hreq
  have hklen : k < c.parts.length := by
    by_contra hc
    rw [List.getElem?_eq_none (by omega)] at hk
    exact Option.noConfusion hk
  have hg0len : (MatchGraph.empty_from_parts c.parts).groups.length = c.parts.length := by
    rw [MatchGraph.empty_from_parts]
    simp [emptyFromPartsAux_groups]
  have hg0k : (MatchGraph.empty_from_parts c.parts).groups[k]? = some Group.empty := by
    rw [MatchGraph.empty_from_parts]
    simp only [emptyFromPartsAux_groups, List.getElem?_map, hk]
    rfl
  obtain ⟨hlen1, htrue, hinv3⟩ := applyLoop_invariant c tokens k pk hk hkq
    ((c.parts.length - 0) + (tokens.length - start)) start 0 0
    (MatchGraph.empty_from_parts c.parts) (le_refl _) hg0len
    (fun hcontra => absurd hcontra (by omega))
    (fun _ => ⟨Group.empty, hg0k, by cases k <;> simp [Group.empty]⟩)
  set res := c.applyLoop tokens start 0 0 (MatchGraph.empty_from_parts c.parts) with hres
  have happ1 : c.apply tokens start =
      (if (res.1 || (c.parts.drop res.2.2).all fun x => x.quantifier.min == 0) = true then
        match res.2.1.groups.findSome? (fun x => x.tokens.head?.map fun t => t.char_span.1),
            res.2.1.groups.reverse.findSome?
              (fun x => x.tokens.head?.map fun t => t.char_span.2) with
        | some s0, some e0 =>
            Except.ok (some { res.2.1 with
              groups := backwardPass e0 (forwardPass s0 res.2.1.groups) })
        | _, _ => Except.error "graph must contain at least one token"
      else Except.ok none) := rfl
  by_cases hmatch : (res.1 || (c.parts.drop res.2.2).all fun x => x.quantifier.min == 0) = true
  · have hki : k < res.2.2 := by
      rcases Bool.or_eq_true_iff.mp hmatch with h1 | h2
      · have := htrue h1
        omega
      · by_contra hc
        have hmem : pk ∈ c.parts.drop res.2.2 := by
          have hdk : (c.parts.drop res.2.2)[k - res.2.2]? = some pk := by
            rw [List.getElem?_drop]
            rw [show res.2.2 + (k - res.2.2) = k by omega]
            exact hk
          exact mem_of_getElem?_eq hdk
        have hz := (List.all_eq_true.mp h2) pk hmem
        simp only [beq_iff_eq] at hz
        omega
    obtain ⟨gk, hgk, hgklen⟩ := hinv3 hki
    have hex : ∃ g, g ∈ res.2.1.groups ∧ g.tokens ≠ [] := by
      refine ⟨gk, mem_of_getElem?_eq hgk, ?_⟩
      intro hnil
      rw [hnil] at hgklen
      simp only [List.length_nil, Nat.le_zero] at hgklen
      omega
    obtain ⟨v1, hv1⟩ := findSome?_head_isSome res.2.1.groups (fun t => t.char_span.1) hex
    have hexr : ∃ g, g ∈ res.2.1.groups.reverse ∧ g.tokens ≠ [] := by
      obtain ⟨g, hmem, hne⟩ := hex
      exact ⟨g, by simpa using hmem, hne⟩
    obtain ⟨v2, hv2⟩ := findSome?_head_isSome res.2.1.groups.reverse
      (fun t => t.char_span.2) hexr
    refine ⟨some { res.2.1 with
      groups := backwardPass v2 (forwardPass v1 res.2.1.groups) }, ?_⟩
    rw [happ1, if_pos hmatch, hv1, hv2]
  · exact ⟨none, by rw [happ1, if_neg hmatch]⟩

/-- Witness for C5 at a concrete composition with a mandatory part. -/
theorem C5_apply_total_witness :
    (∃ (k : Nat) (pk : Part), (singleTrueComp 1 1 true).parts[k]? = some pk
      ∧ 0 < pk.quantifier.min ∧ pk.quantifier.min ≤ pk.quantifier.max)
    ∧ ∃ res : Option MatchGraph, (singleTrueComp 1 1 true).apply [tokA] 0 = Except.ok res :=
  ⟨⟨0, singleTruePart 1 1 true, rfl, by decide, by decide⟩,
   C5_apply_total (singleTrueComp 1 1 true) [tokA] 0
     ⟨0, singleTruePart 1 1 true, rfl, by decide, by decide⟩⟩

/-! ## Characterisation of the lookahead (claim C6) -/

/-- Local form of the lookahead computed by `next_can_match` on the part list
strictly after the current index: scan up to and including the first part
with `min > 0` (or the whole list if there is none) for a part accepted by
`f`. -/
def lookaheadScan (f : Part → Bool) (l : List Part) : Bool :=
  match l.findIdx? (fun x => 0 < x.quantifier.min) with
  | some pos => (l.take (pos + 1)).any f
  | none => l.any f

theorem lookaheadScan_iff (f : Part → Bool) (l : List Part) :
    lookaheadScan f l = true
    ↔ ∃ (j : Nat) (pj : Part), l[j]? = some pj
        ∧ (∀ (m : Nat) (pm : Part), m < j → l[m]? = some pm → pm.quantifier.min = 0)
        ∧ f pj = true := by
  induction l with
  | nil =>
    simp [lookaheadScan, List.findIdx?]
  | cons p rest ih =>
    by_cases hp : 0 < p.quantifier.min
    · have hmain : lookaheadScan f (p :: rest) = f p := by
        rw [lookaheadScan, List.findIdx?_cons, if_pos (by simpa using hp)]
        simp
      rw [hmain]
      constructor
      · intro hf
        exact ⟨0, p, by simp, fun m pm hm _ => absurd hm (by omega), hf⟩
      · rintro ⟨j, pj, hj, hcond, hf⟩
        cases j with
        | zero =>
          simp only [List.getElem?_cons_zero, Option.some_inj] at hj
          rw [hj]
          exact hf
        | succ j =>
          have := hcond 0 p (by omega) (by simp)
          omega
    · have hmain : lookaheadScan f (p :: rest) = (f p || lookaheadScan f rest) := by
        rw [lookaheadScan, lookaheadScan, List.findIdx?_cons, if_neg (by simpa using hp)]
        rw [List.findIdx?_succ]
        cases hq : List.findIdx? (fun x => decide (0 < x.quantifier.min)) rest with
        | some q => simp [List.take_succ_cons]
        | none => simp
      rw [hmain]
      constructor
      · intro hor
        rcases Bool.or_eq_true_iff.mp hor with h1 | h2
        · exact ⟨0, p, by simp, fun m pm hm _ => absurd hm (by omega), h1⟩
        · obtain ⟨j, pj, hj, hcond, hf⟩ := ih.mp h2
          refine ⟨j + 1, pj, by simpa using hj, ?_, hf⟩
          intro m pm hm hpm
          cases m with
          | zero =>
            simp only [List.getElem?_cons_zero, Option.some_inj] at hpm
            rw [← hpm]
            omega
          | succ m =>
            exact hcond m pm (by omega) (by simpa using hpm)
      · rintro ⟨j, pj, hj, hcond, hf⟩
        cases j with
        | zero =>
          simp only [List.getElem?_cons_zero, Option.some_inj] at hj
          rw [← hj] at hf
          exact Bool.or_eq_true_iff.mpr (Or.inl hf)
        | succ j =>
          refine Bool.or_eq_true_iff.mpr (Or.inr (ih.mpr ⟨j, pj, by simpa using hj, ?_, hf⟩))
          intro m pm hm hpm
          exact hcond (m + 1) pm (by omega) (by simpa using hpm)

/-- Bridge: on a valid current index, `next_can_match` computes exactly the
local lookahead scan over the parts strictly after the index. -/
theorem next_can_match_eq_lookaheadScan (c : Composition) (tokens : List Token)
    (graph : MatchGraph) (position : Nat) (index : Nat) :
    c.next_can_match tokens graph position index
      = lookaheadScan (fun x => x.atom.is_match tokens graph position)
          (c.parts.drop (index + 1)) := by
  rw [Composition.next_can_match]
  by_cases hlast : index = c.parts.length - 1
  · rw [if_pos (by simpa using hlast)]
    have hdrop : c.parts.drop (index + 1) = [] := by
      rw [List.drop_eq_nil_iff]
      omega
    rw [hdrop]
    rfl
  · rw [if_neg (by simpa using hlast)]
    show ((c.parts.drop (index + 1)).take
        ((match (c.parts.drop (index + 1)).findIdx? (fun x => 0 < x.quantifier.min) with
          | some pos => index + 1 + pos + 1
          | none => c.parts.length) - (index + 1))).any
        (fun x => x.atom.is_match tokens graph position)
      = lookaheadScan (fun x => x.atom.is_match tokens graph position)
          (c.parts.drop (index + 1))
    rw [lookaheadScan]
    cases hq : (c.parts.drop (index + 1)).findIdx? (fun x => 0 < x.quantifier.min) with
    | some q =>
      simp only [show index + 1 + q + 1 - (index + 1) = q + 1 from by omega]
    | none =>
      rw [List.take_of_length_le (by rw [List.length_drop])]

/-- C6: the lookahead `next_can_match` succeeds exactly when some part in the
contiguous range just after the current part — running through consecutive
parts with `min = 0` up to and including the first later part with `min > 0`,
or through the last part when none exists — has an atom matching at the
current position; and when the current part's repeat count has reached `min`,
is below `max`, and the lookahead succeeds at an in-range position, the
matching loop advances to the next part without consuming a token and resets
the repeat count to 0. -/
theorem C6_lookahead (c : Composition) (tokens : List Token) (graph : MatchGraph)
    (position index : Nat) (_hidx : index < c.parts.length) :
    (c.next_can_match tokens graph position index = true
      ↔ ∃ (j : Nat) (pj : Part), index < j ∧ c.parts[j]? = some pj
          ∧ (∀ (m : Nat) (pm : Part), index < m → m < j → c.parts[m]? = some pm →
              pm.quantifier.min = 0)
          ∧ pj.atom.is_match tokens graph position = true)
    ∧ (∀ cur_count part, c.parts[index]? = some part →
        cur_count < part.quantifier.max → position < tokens.length →
        part.quantifier.min ≤ cur_count →
        c.next_can_match tokens graph position index = true →
        c.applyLoop tokens position cur_count index graph
          = c.applyLoop tokens position 0 (index + 1) graph) := by
  constructor
  · rw [next_can_match_eq_lookaheadScan c tokens graph position index,
      lookaheadScan_iff]
    constructor
    · rintro ⟨j, pj, hj, hcond, hf⟩
      refine ⟨index + 1 + j, pj, by omega, ?_, ?_, hf⟩
      · rw [← List.getElem?_drop]
        exact hj
      · intro m pm hm1 hm2 hpm
        refine hcond (m - (index + 1)) pm (by omega) ?_
        rw [List.getElem?_drop]
        rw [show index + 1 + (m - (index + 1)) = m by omega]
        exact hpm
    · rintro ⟨j, pj, hj1, hj2, hcond, hf⟩
      refine ⟨j - (index + 1), pj, ?_, ?_, hf⟩
      · rw [List.getElem?_drop]
        rw [show index + 1 + (j - (index + 1)) = j by omega]
        exact hj2
      · intro m pm hm hpm
        rw [List.getElem?_drop] at hpm
        exact hcond (index + 1 + m) pm (by omega) (by omega) hpm
  · intro cur_count part hpart hmax hpos hmin hncm
    exact applyLoop_skip c tokens position cur_count index graph part hpart hmax hpos hmin hncm

/-- Witness for C6: on the concrete two-part composition, the lookahead at
index 0 succeeds because the mandatory part at index 1 (the first later part
with `min > 0`) matches at position 0. -/
theorem C6_lookahead_witness :
    comp2.next_can_match [tokC2a, tokC2b]
      ⟨[Group.empty, Group.empty], [(0, 0), (1, 1)]⟩ 0 0 = true :=
  (C6_lookahead comp2 [tokC2a, tokC2b] ⟨[Group.empty, Group.empty], [(0, 0), (1, 1)]⟩
      0 0 (by decide)).1.mpr
    ⟨1, partC2b, by omega, rfl, fun m pm hm1 hm2 _ => absurd hm1 (by omega), by
      simp [partC2b]⟩

/-! ## Conflict resolution (claim C3) -/

/-- Boolean test that the character ranges `[s.start, s.end_)` and
`[k.start, k.end_)` do not intersect. -/
def rangesDisjoint (s k : Suggestion) : Bool :=
  decide (min s.end_ k.end_ ≤ max s.start k.start)

/-- Specification-level greedy conflict resolution: walk the list and keep a
suggestion exactly when its range does not intersect the range of any
previously kept suggestion. -/
def greedyResolve (kept : List Suggestion) : List Suggestion → List Suggestion
  | [] => []
  | s :: rest =>
      if kept.all (fun k => rangesDisjoint s k) then
        s :: greedyResolve (kept ++ [s]) rest
      else greedyResolve kept rest

theorem rangesDisjoint_comm (a b : Suggestion) :
    rangesDisjoint a b = rangesDisjoint b a := by
  rw [rangesDisjoint, rangesDisjoint, Nat.min_comm, Nat.max_comm]

theorem markRange_length (m : List Bool) (a b : Nat) :
    (markRange m a b).length = m.length := by
  induction m generalizing a b with
  | nil => rfl
  | cons x xs ih => simp [markRange, ih]

theorem markRange_getElem? (m : List Bool) (a b i : Nat) :
    (markRange m a b)[i]? = (m[i]?).map fun x => if a ≤ i ∧ i < b then true else x := by
  induction m generalizing a b i with
  | nil => simp [markRange]
  | cons x xs ih =>
    cases i with
    | zero =>
      simp only [markRange, List.getElem?_cons_zero, Option.map_some']
      by_cases hc : a = 0 ∧ 0 < b
      · rw [if_pos hc, if_pos (by omega)]
      · rw [if_neg hc, if_neg (by omega)]
    | succ i =>
      simp only [markRange, List.getElem?_cons_succ, ih]
      cases h : xs[i]? with
      | none => rfl
      | some v =>
        simp only [Option.map_some']
        by_cases hc : a - 1 ≤ i ∧ i < b - 1
        · rw [if_pos hc, if_pos (by omega)]
        · rw [if_neg hc, if_neg (by omega)]

theorem rangeFree_iff (m : List Bool) (a b : Nat) (hb : b ≤ m.length) :
    rangeFree m a b = true ↔ ∀ i, a ≤ i → i < b → m[i]? = some false := by
  rw [rangeFree, List.all_eq_true]
  constructor
  · intro h i hai hib
    have hilen : i < m.length := by omega
    have hslice : ((m.drop a).take (b - a))[i - a]? = m[i]? := by
      rw [List.getElem?_take, if_pos (by omega), List.getElem?_drop,
        show a + (i - a) = i by omega]
    have hmem : m[i] ∈ (m.drop a).take (b - a) := by
      apply mem_of_getElem?_eq (i := i - a)
      rw [hslice]
      exact List.getElem?_eq_getElem hilen
    have hx := h m[i] hmem
    have hfalse : m[i] = false := by
      cases hv : m[i] with
      | true => rw [hv] at hx; exact Bool.noConfusion hx
      | false => rfl
    rw [List.getElem?_eq_getElem hilen, hfalse]
  · intro h x hxmem
    obtain ⟨j, hj⟩ := List.getElem?_of_mem hxmem
    have hjlt : j < b - a := by
      by_contra hc
      rw [List.getElem?_take, if_neg hc] at hj
      exact Option.noConfusion hj
    rw [List.getElem?_take, if_pos hjlt, List.getElem?_drop] at hj
    have := h (a + j) (by omega) (by omega)
    rw [this] at hj
    have hx : x = false := Option.some_inj.mp hj.symm
    rw [hx]
    rfl

theorem retain_eq_greedy (l : List Suggestion) :
    ∀ (mask : List Bool) (kept : List Suggestion),
      (∀ s ∈ l, s.start ≤ s.end_ ∧ s.end_ ≤ mask.length) →
      (∀ i, i < mask.length →
        (mask[i]? = some true ↔ ∃ k ∈ kept, k.start ≤ i ∧ i < k.end_)) →
      retainSuggestions mask l = greedyResolve kept l := by
  induction l with
  | nil =>
    intro mask kept _ _
    rfl
  | cons s rest ih =>
    intro mask kept hl hmask
    have hs := hl s (List.mem_cons_self s rest)
    have hiff1 : rangeFree mask s.start s.end_ = true
        ↔ ∀ i, s.start ≤ i → i < s.end_ → ¬ ∃ k ∈ kept, k.start ≤ i ∧ i < k.end_ := by
      rw [rangeFree_iff mask s.start s.end_ hs.2]
      constructor
      · intro h i hai hib hex
        have htrue := (hmask i (by omega)).mpr hex
        rw [h i hai hib] at htrue
        exact Bool.noConfusion (Option.some_inj.mp htrue)
      · intro h i hai hib
        have hilen : i < mask.length := by omega
        have h2 : ¬ mask[i]? = some true := fun hc => h i hai hib ((hmask i hilen).mp hc)
        have h3 := List.getElem?_eq_getElem hilen
        cases hv : mask[i] with
        | true => rw [hv] at h3; exact absurd h3 h2
        | false => rw [hv] at h3; exact h3
    have hiff2 : kept.all (fun k => rangesDisjoint s k) = true
        ↔ ∀ i, s.start ≤ i → i < s.end_ → ¬ ∃ k ∈ kept, k.start ≤ i ∧ i < k.end_ := by
      rw [List.all_eq_true]
      constructor
      · intro hall i hai hib hex
        obtain ⟨k, hkmem, hk1, hk2⟩ := hex
        have hd := hall k hkmem
        rw [rangesDisjoint, decide_eq_true_eq] at hd
        omega
      · intro h k hkmem
        rw [rangesDisjoint, decide_eq_true_eq]
        by_contra hlt
        exact h (max s.start k.start) (by omega) (by omega) ⟨k, hkmem, by omega, by omega⟩
    have hcond : rangeFree mask s.start s.end_ = kept.all fun k => rangesDisjoint s k := by
      cases h1 : rangeFree mask s.start s.end_ with
      | true =>
        cases h2 : kept.all (fun k => rangesDisjoint s k) with
        | true => rfl
        | false => exact absurd (hiff2.mpr (hiff1.mp h1)) (by rw [h2]; exact Bool.noConfusion)
      | false =>
        cases h2 : kept.all (fun k => rangesDisjoint s k) with
        | true => exact absurd (hiff1.mpr (hiff2.mp h2)) (by rw [h1]; exact Bool.noConfusion)
        | false => rfl
    rw [retainSuggestions, greedyResolve, hcond]
    by_cases hkeep : (kept.all fun k => rangesDisjoint s k) = true
    · rw [if_pos hkeep, if_pos hkeep]
      congr 1
      apply ih
      · intro x hx
        have := hl x (List.mem_cons_of_mem s hx)
        rw [markRange_length]
        exact this
      · intro i hi
        rw [markRange_length] at hi
        rw [markRange_getElem?]
        have h3 := List.getElem?_eq_getElem hi
        rw [h3]
        simp only [Option.map_some', Option.some_inj]
        constructor
        · intro hval
          by_cases hin : s.start ≤ i ∧ i < s.end_
          · exact ⟨s, by simp, hin.1, hin.2⟩
          · rw [if_neg hin] at hval
            have := (hmask i hi).mp (by rw [h3, hval])
            obtain ⟨k, hk, hks⟩ := this
            exact ⟨k, by simp [hk], hks⟩
        · rintro ⟨k, hkmem, hk1, hk2⟩
          rcases List.mem_append.mp hkmem with hold | hnew
          · have := (hmask i hi).mpr ⟨k, hold, hk1, hk2⟩
            rw [h3] at this
            have hv := Option.some_inj.mp this
            rw [hv]
            by_cases hc : s.start ≤ i ∧ i < s.end_
            · rw [if_pos hc]
            · rw [if_neg hc]
          · have hks : k = s := by simpa using hnew
            rw [hks] at hk1 hk2
            rw [if_pos ⟨hk1, hk2⟩]
    · rw [if_neg hkeep, if_neg hkeep]
      exact ih mask kept (fun x hx => hl x (List.mem_cons_of_mem s hx)) hmask

theorem retainSuggestions_sublist (l : List Suggestion) :
    ∀ mask, (retainSuggestions mask l).Sublist l := by
  induction l with
  | nil =>
    intro mask
    rw [retainSuggestions]
  | cons s rest ih =>
    intro mask
    rw [retainSuggestions]
    by_cases h : rangeFree mask s.start s.end_ = true
    · rw [if_pos h]
      exact List.Sublist.cons₂ s (ih _)
    · rw [if_neg h]
      exact List.Sublist.cons s (ih mask)

theorem insertByStart_perm (s : Suggestion) (l : List Suggestion) :
    (insertByStart s l).Perm (s :: l) := by
  induction l with
  | nil => rfl
  | cons k rest ih =>
    rw [insertByStart]
    by_cases h : s.start ≤ k.start
    · rw [if_pos h]
    · rw [if_neg h]
      exact (ih.cons k).trans (List.Perm.swap s k rest)

theorem sortByStart_perm (l : List Suggestion) : (sortByStart l).Perm l := by
  induction l with
  | nil => rfl
  | cons s rest ih => exact (insertByStart_perm s (sortByStart rest)).trans (ih.cons s)

theorem insertByStart_sorted (s : Suggestion) (l : List Suggestion)
    (h : List.Pairwise (fun a b => a.start ≤ b.start) l) :
    List.Pairwise (fun a b => a.start ≤ b.start) (insertByStart s l) := by
  induction l with
  | nil => simp [insertByStart]
  | cons k rest ih =>
    rw [insertByStart]
    rw [List.pairwise_cons] at h
    by_cases hc : s.start ≤ k.start
    · rw [if_pos hc]
      rw [List.pairwise_cons]
      refine ⟨?_, List.pairwise_cons.mpr h⟩
      intro b hb
      rcases List.mem_cons.mp hb with hbk | hbr
      · rw [hbk]
        exact hc
      · exact Nat.le_trans hc (h.1 b hbr)
    · rw [if_neg hc]
      rw [List.pairwise_cons]
      refine ⟨?_, ih h.2⟩
      intro b hb
      rcases List.mem_cons.mp ((insertByStart_perm s rest).mem_iff.mp hb) with hbs | hbr
      · rw [hbs]
        omega
      · exact h.1 b hbr

theorem sortByStart_sorted (l : List Suggestion) :
    List.Pairwise (fun a b => a.start ≤ b.start) (sortByStart l) := by
  induction l with
  | nil => exact List.Pairwise.nil
  | cons s rest ih => exact insertByStart_sorted s (sortByStart rest) ih

theorem greedyResolve_disjoint (l : List Suggestion) :
    ∀ kept, (∀ x ∈ greedyResolve kept l, ∀ k ∈ kept, rangesDisjoint x k = true)
      ∧ List.Pairwise (fun a b => rangesDisjoint a b = true) (greedyResolve kept l) := by
  induction l with
  | nil =>
    intro kept
    constructor
    · intro x hx
      rw [greedyResolve] at hx
      exact absurd hx (List.not_mem_nil x)
    · rw [greedyResolve]
      exact List.Pairwise.nil
  | cons s rest ih =>
    intro kept
    rw [greedyResolve]
    by_cases hkeep : (kept.all fun k => rangesDisjoint s k) = true
    · rw [if_pos hkeep]
      have hall := List.all_eq_true.mp hkeep
      obtain ⟨ih1, ih2⟩ := ih (kept ++ [s])
      constructor
      · intro x hx k hk
        rcases List.mem_cons.mp hx with hxs | hxr
        · rw [hxs]
          exact hall k hk
        · exact ih1 x hxr k (List.mem_append.mpr (Or.inl hk))
      · rw [List.pairwise_cons]
        refine ⟨?_, ih2⟩
        intro b hb
        rw [rangesDisjoint_comm]
        exact ih1 b hb s (List.mem_append.mpr (Or.inr (by simp)))
    · rw [if_neg hkeep]
      exact ih kept

/-- C3: Rules.suggest sorts the collected suggestions ascending by start
(stable) and keeps a suggestion exactly when its `[start, end)` range does
not intersect the range of any suggestion kept before it; the returned list
is sorted ascending by start and pairwise non-overlapping; for the
overlapping ranges `[0,3)` and `[2,5)` only the suggestion with the smaller
start survives, while the disjoint ranges `[0,3)` and `[3,6)` both survive. -/
theorem C3_suggest_merge (output : List Suggestion) (n : Nat)
    (hb : ∀ s ∈ output, s.start ≤ s.end_ ∧ s.end_ ≤ n) :
    mergeSuggestions output n = greedyResolve [] (sortByStart output)
    ∧ List.Pairwise (fun a b => a.start ≤ b.start) (mergeSuggestions output n)
    ∧ List.Pairwise (fun a b => rangesDisjoint a b = true) (mergeSuggestions output n)
    ∧ mergeSuggestions [⟨0, 3, ["x"]⟩, ⟨2, 5, ["y"]⟩] 5 = [⟨0, 3, ["x"]⟩]
    ∧ mergeSuggestions [⟨0, 3, ["x"]⟩, ⟨3, 6, ["y"]⟩] 6
        = [⟨0, 3, ["x"]⟩, ⟨3, 6, ["y"]⟩] := by
  have hbs : ∀ s ∈ sortByStart output, s.start ≤ s.end_
      ∧ s.end_ ≤ (List.replicate n false).length := by
    intro s hs
    rw [List.length_replicate]
    exact hb s ((sortByStart_perm output).mem_iff.mp hs)
  have heq : mergeSuggestions output n = greedyResolve [] (sortByStart output) := by
    rw [mergeSuggestions]
    apply retain_eq_greedy (sortByStart output) (List.replicate n false) [] hbs
    intro i hi
    constructor
    · intro hc
      rw [List.getElem?_eq_getElem hi] at hc
      have := Option.some_inj.mp hc
      rw [List.getElem_replicate] at this
      exact Bool.noConfusion this
    · rintro ⟨k, hk, _⟩
      exact absurd hk (List.not_mem_nil k)
  refine ⟨heq, ?_, ?_, by decide, by decide⟩
  · exact List.Pairwise.sublist (retainSuggestions_sublist (sortByStart output) _)
      (sortByStart_sorted output)
  · rw [heq]
    exact (greedyResolve_disjoint (sortByStart output) []).2

/-- Witness for C3 at the overlapping example: two suggestions with ranges
`[0,3)` and `[2,5)` merge to just the first. -/
theorem C3_suggest_merge_witness :
    (∀ s ∈ ([⟨0, 3, ["x"]⟩, ⟨2, 5, ["y"]⟩] : List Suggestion),
      s.start ≤ s.end_ ∧ s.end_ ≤ 5)
    ∧ mergeSuggestions [⟨0, 3, ["x"]⟩, ⟨2, 5, ["y"]⟩] 5
        = greedyResolve [] (sortByStart [⟨0, 3, ["x"]⟩, ⟨2, 5, ["y"]⟩]) :=
  ⟨by decide, (C3_suggest_merge [⟨0, 3, ["x"]⟩, ⟨2, 5, ["y"]⟩] 5 (by decide)).1⟩

/-! ## Text patching (claim C4) -/

/-- Boolean validity of a suggestion list for `correct`: start-ascending and
non-overlapping (each suggestion starts at or after the previous one's end),
each range well-formed and within the text, starting from character `base`. -/
def validFrom (base limit : Nat) : List Suggestion → Bool
  | [] => true
  | s :: rest =>
      decide (base ≤ s.start) && decide (s.start ≤ s.end_) && decide (s.end_ ≤ limit)
        && validFrom s.end_ limit rest

/-- Reference semantics of patching: replace each suggestion's range of the
ORIGINAL text with its first replacement, all ranges interpreted in original
coordinates (`base` is the original coordinate of the first character of
`chars`). -/
def applySuggestionsSpec : List Char → Nat → List Suggestion → List Char
  | chars, _, [] => chars
  | chars, base, s :: rest =>
      chars.take (s.start - base) ++ (s.text.headD "").data
        ++ applySuggestionsSpec (chars.drop (s.end_ - base)) s.end_ rest

theorem correctLoop_spec (limit : Nat) (l : List Suggestion) :
    ∀ (done remaining : List Char) (base : Nat),
      validFrom base limit l = true →
      base ≤ limit →
      remaining.length = limit - base →
      correctLoop ((done.length : Int) - (base : Int)) (done ++ remaining) l
        = done ++ applySuggestionsSpec remaining base l := by
  induction l with
  | nil =>
    intro done rem base _ _ _
    rfl
  | cons s rest ih =>
    intro done rem base hv hbl hrem
    simp only [validFrom, Bool.and_eq_true, decide_eq_true_eq] at hv
    obtain ⟨⟨⟨h1, h2⟩, h3⟩, h4⟩ := hv
    rw [correctLoop, applySuggestionsSpec]
    have ha : ((s.start : Int) + ((done.length : Int) - (base : Int))).toNat
        = done.length + (s.start - base) := by omega
    have hb : ((s.end_ : Int) + ((done.length : Int) - (base : Int))).toNat
        = done.length + (s.end_ - base) := by omega
    rw [ha, hb]
    have htake : (done ++ rem).take (done.length + (s.start - base))
        = done ++ rem.take (s.start - base) := by
      rw [List.take_append_eq_append_take, List.take_of_length_le (by omega)]
      congr 2
      omega
    have hdrop : (done ++ rem).drop (done.length + (s.end_ - base))
        = rem.drop (s.end_ - base) := by
      rw [List.drop_append_eq_append_drop, List.drop_eq_nil_of_le (by omega)]
      rw [List.nil_append]
      congr 1
      omega
    rw [htake, hdrop]
    have hoff : ((done.length : Int) - (base : Int)) + ((s.text.headD "").data.length : Int)
        - ((s.end_ - s.start : Nat) : Int)
        = ((done ++ rem.take (s.start - base) ++ (s.text.headD "").data).length : Int)
          - (s.end_ : Int) := by
      have htlen : (rem.take (s.start - base)).length = s.start - base := by
        rw [List.length_take]
        omega
      simp only [List.length_append, htlen]
      omega
    have hassoc : done ++ rem.take (s.start - base) ++ (s.text.headD "").data
        ++ rem.drop (s.end_ - base)
        = (done ++ rem.take (s.start - base) ++ (s.text.headD "").data)
          ++ rem.drop (s.end_ - base) := by
      simp [List.append_assoc]
    rw [hoff, hassoc, ih _ _ s.end_ h4 (by omega) (by rw [List.length_drop]; omega)]
    simp [List.append_assoc]

/-- C4: `correct` processes the suggestions in order with a running signed
offset, splicing each suggestion's offset-shifted range with its first
replacement text, and for every start-ascending, non-overlapping, in-bounds
suggestion list this equals replacing every suggestion's range of the
original text simultaneously (earlier length changes shift later replacement
positions correctly); in particular correcting "Teh cat sat." with
{start 0, end 3, replacement "The"} yields "The cat sat.". The source indexes
`suggestion.text[0]`, which panics on an empty replacement list; such inputs
are excluded by hypothesis and modelled by `headD ""`. -/
theorem C4_correct_refines (text : String) (l : List Suggestion)
    (hv : validFrom 0 text.length l = true)
    (_hne : ∀ s ∈ l, s.text ≠ []) :
    correct text l = String.mk (applySuggestionsSpec text.data 0 l)
    ∧ correct "Teh cat sat." [⟨0, 3, ["The"]⟩] = "The cat sat." := by
  constructor
  · rw [correct]
    have h := correctLoop_spec text.length l [] text.data 0 hv (by omega)
      (by rw [String.length]; omega)
    simpa using congrArg String.mk h
  · rfl

/-- Witness for C4 at the concrete example from the specification. -/
theorem C4_correct_refines_witness :
    validFrom 0 ("Teh cat sat.").length [⟨0, 3, ["The"]⟩] = true
    ∧ correct "Teh cat sat." [⟨0, 3, ["The"]⟩]
        = String.mk (applySuggestionsSpec ("Teh cat sat.").data 0 [⟨0, 3, ["The"]⟩])
    ∧ correct "Teh cat sat." [⟨0, 3, ["The"]⟩] = "The cat sat." :=
  ⟨by decide,
   (C4_correct_refines "Teh cat sat." [⟨0, 3, ["The"]⟩] (by decide) (by decide)).1,
   (C4_correct_refines "Teh cat sat." [⟨0, 3, ["The"]⟩] (by decide) (by decide)).2⟩

/-! ## Deterministic merge under any rule-completion order (claim C9) -/

/-- Model of the parallel collection step (from the spec; the worker-pool
machinery of `utils::parallelism` is outside the modelled sources): each rule
index produces one suggestion batch, and collection orders the batches by
rule index regardless of the order in which workers complete, so the
pre-sort list is the concatenation of the per-rule batches in rule order. -/
def collectBatches (m : Nat) (ibs : List (Nat × List Suggestion)) : List Suggestion :=
  (List.range m).flatMap fun i => (ibs.lookup i).getD []

theorem lookup_perm_nodup {β : Type} (l l' : List (Nat × β)) (h : l.Perm l')
    (hnd : (l.map Prod.fst).Nodup) (a : Nat) : l.lookup a = l'.lookup a := by
  induction h with
  | nil => rfl
  | cons x h ih =>
    rw [List.lookup, List.lookup]
    cases hx : (a == x.1) with
    | true => rfl
    | false =>
      simp only [List.map_cons, List.nodup_cons] at hnd
      exact ih hnd.2
  | swap x y l =>
    simp only [List.map_cons, List.nodup_cons, List.mem_cons] at hnd
    have hxy : ¬ (y.1 = x.1) := fun hc => hnd.1 (Or.inl hc)
    rw [List.lookup, List.lookup, List.lookup, List.lookup]
    cases hay : (a == y.1) with
    | true =>
      cases hax : (a == x.1) with
      | true =>
        have h1 : a = y.1 := by simpa using hay
        have h2 : a = x.1 := by simpa using hax
        exact absurd (h2 ▸ h1.symm) hxy
      | false => rfl
    | false =>
      cases hax : (a == x.1) with
      | true => rfl
      | false => rfl
  | trans h1 h2 ih1 ih2 =>
    rw [ih1 hnd, ih2 ((h1.map Prod.fst).nodup_iff.mp hnd)]

/-- C9: the final suggestion list is a deterministic function of the per-rule
suggestion batches keyed by rule index: whatever order the (possibly
parallel) rule evaluations deliver their batches in, collecting by rule
index, sorting by start (stable) and running the greedy occupancy scan
produces the identical output list. -/
theorem C9_deterministic_merge (m n : Nat) (ibs ibs' : List (Nat × List Suggestion))
    (hperm : ibs.Perm ibs') (hnd : (ibs.map Prod.fst).Nodup) :
    mergeSuggestions (collectBatches m ibs) n
      = mergeSuggestions (collectBatches m ibs') n := by
  have hc : collectBatches m ibs = collectBatches m ibs' := by
    rw [collectBatches, collectBatches]
    have hfun : (fun i => ((ibs.lookup i).getD ([] : List Suggestion)))
        = fun i => ((ibs'.lookup i).getD []) := by
      funext i
      rw [lookup_perm_nodup ibs ibs' hperm hnd i]
    rw [hfun]
  rw [hc]

def batchA : List Suggestion := [⟨0, 3, ["x"]⟩]

def batchB : List Suggestion := [⟨4, 6, ["y"]⟩]

/-- Witness for C9: two rules' batches delivered in either completion order
merge to the same final list. -/
theorem C9_deterministic_merge_witness :
    ([((0 : Nat), batchA), (1, batchB)] : List (Nat × List Suggestion)).Perm
      [(1, batchB), (0, batchA)]
    ∧ mergeSuggestions (collectBatches 2 [(0, batchA), (1, batchB)]) 6
        = mergeSuggestions (collectBatches 2 [(1, batchB), (0, batchA)]) 6 :=
  ⟨List.Perm.swap (1, batchB) (0, batchA) [],
   C9_deterministic_merge 2 6 [(0, batchA), (1, batchB)] [(1, batchB), (0, batchA)]
     (List.Perm.swap (1, batchB) (0, batchA) []) (by decide)⟩

end NR
